import Mathlib

/-!
Verification of the folder-synchronisation program in `src/app.py`.

The program is embedded shallowly:

* A directory tree (`Tree`) is a node holding the regular files of that
  directory (name, byte content and modification time, as `shutil.copy2`
  preserves both) and its subdirectories.  Paths are lists of name
  components relative to a tree root; `dirpath.replace(source_folder,
  replica_folder, 1)` in the source is exactly the translation between the
  two roots, so both trees are addressed by the same relative paths here.
* `calculate_hash` reads a file in 4096-byte chunks and feeds them to an
  incremental `hashlib.md5` object.  `hashlib` is external library code;
  it is modelled as an incremental hash whose state is the byte stream
  absorbed so far and whose digest is an injective function of that
  stream, which is the contract the specification assigns to the content
  fingerprint.  The chunking loop itself is translated from the source.
* `sync_folders` is translated phase by phase: the create/update walk of
  the source tree, the restore walk, and the bottom-up prune walk of the
  replica.  `os.walk` visits a directory's files and then recurses into
  its subdirectories (top-down), or the reverse (bottom-up); the walks are
  rendered as structural recursion over the trees, which yields the same
  visiting order.  Log lines become `Action` values carrying the path
  relative to the replica root; calls to `calculate_hash` are recorded in
  a ghost list so that claims about which files get fingerprinted can be
  stated.

Python raises an exception when a path is a directory in one tree and a
file at the same relative path in the other (`calculate_hash` on a
directory, `copy2` onto a directory): such runs abort.  Theorems about
completed runs therefore assume the two trees are `compat`ible, and that
each directory lists each name once (`wf`), which is guaranteed by a real
filesystem.
-/

set_option autoImplicit false

namespace FolderSync

/-- Byte content plus modification metadata of a regular file.
`shutil.copy2` copies both; the sync decisions only ever read `bytes`. -/
structure FileData where
  bytes : List Nat
  mtime : Nat
deriving DecidableEq, Repr

/-- A directory: its regular files and its subdirectories, in listing
order (the order `os.scandir` reports and `os.walk` uses). -/
inductive Tree where
  | node : List (String × FileData) → List (String × Tree) → Tree

/-- Files of a directory node. -/
def Tree.files : Tree → List (String × FileData)
  | .node fs _ => fs

/-- Subdirectories of a directory node. -/
def Tree.dirs : Tree → List (String × Tree)
  | .node _ ds => ds

/-- The empty directory, as created by `os.makedirs`. -/
def Tree.empty : Tree := .node [] []

/-- First entry with the given name in an association list (a real
directory lists each name once, so "first" is "the" entry). -/
def lookupEntry {α : Type} : List (String × α) → String → Option α
  | [], _ => none
  | e :: rest, n => if e.1 = n then some e.2 else lookupEntry rest n

/-- Replace the first entry with the given name, or append a new entry:
the in-place overwrite / creation performed by `shutil.copy2`. -/
def setEntry {α : Type} : List (String × α) → String → α → List (String × α)
  | [], n, v => [(n, v)]
  | e :: rest, n, v => if e.1 = n then (n, v) :: rest else e :: setEntry rest n v

/-- The file at a relative path, if any. -/
def Tree.fileAt : Tree → List String → Option FileData
  | _, [] => none
  | t, [n] => lookupEntry (Tree.files t) n
  | t, n :: m :: ns =>
    match lookupEntry (Tree.dirs t) n with
    | some c => Tree.fileAt c (m :: ns)
    | none => none

/-- The subdirectory at a relative path, if any (`[]` is the root). -/
def Tree.dirAt : Tree → List String → Option Tree
  | t, [] => some t
  | t, n :: ns =>
    match lookupEntry (Tree.dirs t) n with
    | some c => Tree.dirAt c ns
    | none => none

/-- Model of `os.path.exists`: true if the relative path is a file or a directory. -/
def Tree.pathExists (t : Tree) (p : List String) : Bool :=
  (t.fileAt p).isSome || (t.dirAt p).isSome

/-- No duplicates, by direct recursion (so it computes). -/
def nodupB : List String → Bool
  | [] => true
  | x :: xs => !(decide (x ∈ xs)) && nodupB xs

mutual
/-- Well-formed directory tree: within every directory, the file names
and subdirectory names are pairwise distinct — true of any tree read off
a real filesystem. -/
def Tree.wf : Tree → Bool
  | .node fs ds => nodupB (fs.map (·.1) ++ ds.map (·.1)) && wfChildren ds

/-- Conjunction of `Tree.wf` over each subdirectory of a listing. -/
def wfChildren : List (String × Tree) → Bool
  | [] => true
  | (_, t) :: rest => Tree.wf t && wfChildren rest
end

mutual
/-- No relative path is a directory in one tree and a file in the other.
When this fails the Python program raises (`calculate_hash` opens a
directory, or `copy2`/`makedirs` hits a file) and the pass aborts, so
completed runs satisfy it. -/
def compat : Tree → Tree → Bool
  | .node sfs sds, .node rfs rds =>
    sfs.all (fun f => !(rds.any (fun d => d.1 = f.1))) &&
    sds.all (fun d => !(rfs.any (fun f => f.1 = d.1))) &&
    compatChildren sds rds
/-- Pointwise `compat` on the subdirectories the two listings share. -/
def compatChildren : List (String × Tree) → List (String × Tree) → Bool
  | [], _ => true
  | (dn, sub) :: rest, rds =>
    (match lookupEntry rds dn with
     | some c => compat sub c
     | none => true) &&
    compatChildren rest rds
end

/-- One line of the append-only action log, carrying the path relative
to the replica root (the program logs the absolute replica path, which
is the replica root joined with this). -/
inductive Action where
  | dirCreated (p : List String)
  | fileCopied (p : List String)
  | fileUpdated (p : List String)
  | fileRestored (p : List String)
  | fileDeleted (p : List String)
  | dirDeleted (p : List String)
deriving DecidableEq, Repr

/-- Re-root an action logged inside subdirectory `dn`. -/
def Action.withParent (dn : String) : Action → Action
  | .dirCreated p => .dirCreated (dn :: p)
  | .fileCopied p => .fileCopied (dn :: p)
  | .fileUpdated p => .fileUpdated (dn :: p)
  | .fileRestored p => .fileRestored (dn :: p)
  | .fileDeleted p => .fileDeleted (dn :: p)
  | .dirDeleted p => .dirDeleted (dn :: p)

/-! ### Content fingerprint (`calculate_hash`, `src/app.py` lines 11-24)

`hashlib.md5()` is modelled incrementally: the state is the byte stream
absorbed so far, `update` absorbs a chunk, and the digest is an injective
function of the absorbed stream (the specification's contract for the
fingerprint; its accidental-collision avoidance is taken as given). -/

/-- Model of `hashlib.md5()`: fresh hash state. -/
def md5_init : List Nat := []

/-- Model of `hash_md5.update(chunk)`: absorb a chunk into the state. -/
def md5_update (st chunk : List Nat) : List Nat := st ++ chunk

/-- Model of `hash_md5.hexdigest()`: the digest of the absorbed stream. -/
def md5_hexdigest (st : List Nat) : List Nat := st

/-- Model of the read loop `iter(lambda: f.read(4096), ...)`: the successive 4096-byte chunks
of the stream, ending when a read returns no bytes. -/
def readChunks : List Nat → List (List Nat)
  | [] => []
  | b :: rest => (b :: rest).take 4096 :: readChunks ((b :: rest).drop 4096)
termination_by l => l.length
decreasing_by simp [List.length_drop]; omega

/-- Model of `calculate_hash`: fold the chunked reads into the hash and take the
digest. -/
def calculate_hash (content : List Nat) : List Nat :=
  md5_hexdigest ((readChunks content).foldl md5_update md5_init)

/-- Hashing the whole byte sequence in a single update — the reference
point for the chunk-size-irrelevance claim. -/
def md5_whole (content : List Nat) : List Nat :=
  md5_hexdigest (md5_update md5_init content)

/-! ### Phase 1 — create/update walk (`src/app.py` lines 38-59)

`os.walk(source_folder)` top-down: a directory's files are processed,
then its subdirectories are entered in listing order.  The walk of a
subdirectory `dn` only reads and writes the replica subtree at `dn`, so
it is rendered as recursion on the source node paired with the replica
node at the same relative path; paths in the returned known-files list,
actions and hash ghost are re-rooted with `dn :: ·` on the way out. -/

/-- Result of (a piece of) phase 1: the replica part it rewrote, the
known-source-files entries, the logged actions, and the ghost list of
paths passed to `calculate_hash` (one entry per call). -/
structure Res1 (α : Type) where
  rep : α
  known : List (List String)
  acts : List Action
  hashed : List (List String)

/-- Result of (a piece of) phase 2 or 3: the replica part it rewrote and
the logged actions. -/
structure Res2 (α : Type) where
  rep : α
  acts : List Action

/-- The file loop of phase 1 (lines 46-59), over the files of one source
directory, against the replica directory's files `rfs` and
subdirectories `rds`. -/
def pass1Files (logName : String) :
    List (String × FileData) → List (String × FileData) → List (String × Tree) →
    Res1 (List (String × FileData))
  | [], rfs, _ => ⟨rfs, [], [], []⟩
  | (n, fd) :: rest, rfs, rds =>
    if n = logName then
      pass1Files logName rest rfs rds
    else
      if !((lookupEntry rfs n).isSome || (lookupEntry rds n).isSome) then
        -- `not os.path.exists(replica_file)`: copy, no fingerprint
        let r := pass1Files logName rest (setEntry rfs n fd) rds
        ⟨r.rep, [n] :: r.known, .fileCopied [n] :: r.acts, r.hashed⟩
      else
        -- fingerprint source and replica copies
        if calculate_hash fd.bytes =
            calculate_hash (((lookupEntry rfs n).map (·.bytes)).getD []) then
          let r := pass1Files logName rest rfs rds
          ⟨r.rep, [n] :: r.known, r.acts, [n] :: [n] :: r.hashed⟩
        else
          let r := pass1Files logName rest (setEntry rfs n fd) rds
          ⟨r.rep, [n] :: r.known, .fileUpdated [n] :: r.acts, [n] :: [n] :: r.hashed⟩

mutual
/-- Phase 1 on one source directory node against the replica node at the
same relative path. -/
def pass1 (logName : String) (sn rn : Tree) : Res1 Tree :=
  match sn, rn with
  | .node sfs sds, .node rfs rds =>
    let rf := pass1Files logName sfs rfs rds
    let rd := pass1Dirs logName sds rf.rep rds
    ⟨.node rf.rep rd.rep, rf.known ++ rd.known, rf.acts ++ rd.acts, rf.hashed ++ rd.hashed⟩
termination_by sizeOf sn

/-- The subdirectory walk of phase 1: each source subdirectory gets the
`os.path.exists` / `os.makedirs` treatment of lines 42-44 at its own
yield, then its subtree is walked. -/
def pass1Dirs (logName : String) (sds : List (String × Tree))
    (rfs : List (String × FileData)) (rds : List (String × Tree)) :
    Res1 (List (String × Tree)) :=
  match sds with
  | [] => ⟨rds, [], [], []⟩
  | (dn, sub) :: rest =>
    let created := !((lookupEntry rfs dn).isSome || (lookupEntry rds dn).isSome)
    let rc := pass1 logName sub ((lookupEntry rds dn).getD Tree.empty)
    let rr := pass1Dirs logName rest rfs (setEntry rds dn rc.rep)
    ⟨rr.rep,
     rc.known.map (dn :: ·) ++ rr.known,
     (if created then [Action.dirCreated [dn]] else []) ++
       rc.acts.map (Action.withParent dn) ++ rr.acts,
     rc.hashed.map (dn :: ·) ++ rr.hashed⟩
termination_by sizeOf sds
end

/-! ### Phase 2 — restore walk (`src/app.py` lines 61-75)

A second top-down walk of the source tree.  Unlike phase 1 it does not
skip the log-file name, never fingerprints, and copies exactly the
source files whose replica path does not exist, logging them as
restored. -/

/-- The file loop of phase 2 (lines 69-75). -/
def pass2Files :
    List (String × FileData) → List (String × FileData) → List (String × Tree) →
    Res2 (List (String × FileData))
  | [], rfs, _ => ⟨rfs, []⟩
  | (n, fd) :: rest, rfs, rds =>
    if !((lookupEntry rfs n).isSome || (lookupEntry rds n).isSome) then
      let r := pass2Files rest (setEntry rfs n fd) rds
      ⟨r.rep, .fileRestored [n] :: r.acts⟩
    else
      pass2Files rest rfs rds

mutual
/-- Phase 2 on one source directory node against the replica node at the
same relative path. -/
def pass2 (sn rn : Tree) : Res2 Tree :=
  match sn, rn with
  | .node sfs sds, .node rfs rds =>
    let rf := pass2Files sfs rfs rds
    let rd := pass2Dirs sds rf.rep rds
    ⟨.node rf.rep rd.rep, rf.acts ++ rd.acts⟩
termination_by sizeOf sn

/-- The subdirectory walk of phase 2, with the same ensure-directory
step (lines 65-67) as phase 1. -/
def pass2Dirs (sds : List (String × Tree))
    (rfs : List (String × FileData)) (rds : List (String × Tree)) :
    Res2 (List (String × Tree)) :=
  match sds with
  | [] => ⟨rds, []⟩
  | (dn, sub) :: rest =>
    let created := !((lookupEntry rfs dn).isSome || (lookupEntry rds dn).isSome)
    let rc := pass2 sub ((lookupEntry rds dn).getD Tree.empty)
    let rr := pass2Dirs rest rfs (setEntry rds dn rc.rep)
    ⟨rr.rep,
     (if created then [Action.dirCreated [dn]] else []) ++
       rc.acts.map (Action.withParent dn) ++ rr.acts⟩
termination_by sizeOf sds
end

/-! ### Phase 3 — prune walk (`src/app.py` lines 77-91)

`os.walk(replica_folder, topdown=False)`: subdirectory subtrees are
visited before their parent yields, and at each yield the stale files
are removed (`replica_file not in source_files`), then subdirectories
with no corresponding source path are `shutil.rmtree`d.  The
known-source-files dictionary is keyed by replica paths; relative to a
subdirectory `dn` its relevant entries are the tails of the entries
starting with `dn`. -/

/-- The entries of the known-source-files set that fall inside
subdirectory `dn`, re-rooted to it. -/
def childKnown (dn : String) (known : List (List String)) : List (List String) :=
  known.filterMap (fun r =>
    match r with
    | x :: rest => if x = dn then some rest else none
    | [] => none)

/-- The file loop of phase 3 (lines 79-84): delete the files of this
replica directory that are not known source files. -/
def pruneFiles (known : List (List String)) :
    List (String × FileData) → Res2 (List (String × FileData))
  | [] => ⟨[], []⟩
  | (n, fd) :: rest =>
    let r := pruneFiles known rest
    if [n] ∈ known then ⟨(n, fd) :: r.rep, r.acts⟩
    else ⟨r.rep, .fileDeleted [n] :: r.acts⟩

/-- Model of `os.path.exists(source_dir)` for the subdirectory check of line 89:
the corresponding source path exists as a file or a directory.  `none`
means some ancestor of this directory does not exist in the source. -/
def srcHas (srcOpt : Option Tree) (dn : String) : Bool :=
  match srcOpt with
  | none => false
  | some s => (lookupEntry s.files dn).isSome || (lookupEntry s.dirs dn).isSome

/-- The subdirectory loop of phase 3 (lines 86-91): `shutil.rmtree` each
replica subdirectory whose source path does not exist. -/
def pruneDrop (srcOpt : Option Tree) :
    List (String × Tree) → Res2 (List (String × Tree))
  | [] => ⟨[], []⟩
  | (dn, sub) :: rest =>
    let r := pruneDrop srcOpt rest
    if srcHas srcOpt dn then ⟨(dn, sub) :: r.rep, r.acts⟩
    else ⟨r.rep, .dirDeleted [dn] :: r.acts⟩

mutual
/-- Phase 3 on one replica node: children bottom-up first (their yields
precede this one), then this directory's stale files, then its
sourceless subdirectories. -/
def prune (srcOpt : Option Tree) (known : List (List String)) (rn : Tree) :
    Res2 Tree :=
  match rn with
  | .node rfs rds =>
    let rc := pruneChildren srcOpt known rds
    let rf := pruneFiles known rfs
    let rd := pruneDrop srcOpt rc.rep
    ⟨.node rf.rep rd.rep, rc.acts ++ rf.acts ++ rd.acts⟩
termination_by sizeOf rn

/-- Bottom-up recursion of phase 3 into each replica subdirectory. -/
def pruneChildren (srcOpt : Option Tree) (known : List (List String))
    (rds : List (String × Tree)) :
    Res2 (List (String × Tree)) :=
  match rds with
  | [] => ⟨[], []⟩
  | (dn, sub) :: rest =>
    let rc := prune (srcOpt.bind (fun s => lookupEntry s.dirs dn)) (childKnown dn known) sub
    let rr := pruneChildren srcOpt known rest
    ⟨(dn, rc.rep) :: rr.rep, rc.acts.map (Action.withParent dn) ++ rr.acts⟩
termination_by sizeOf rds
end

/-! ### `sync_folders` (`src/app.py` lines 26-91) -/

/-- The outcome of one pass: the replica tree, the action log of the
pass, and the ghost list of fingerprinted paths. -/
structure SyncResult where
  replica : Tree
  actions : List Action
  hashed : List (List String)

/-- One complete run of `sync_folders`: create the replica root if
missing (lines 34-36), then the three walks.  `rep = none` models a
replica root that does not yet exist; `logName` is
`os.path.basename(log_file)`. -/
def sync_folders (src : Tree) (rep : Option Tree) (logName : String) : SyncResult :=
  let acts0 : List Action := if rep.isNone then [Action.dirCreated []] else []
  let r1 := pass1 logName src (rep.getD Tree.empty)
  let r2 := pass2 src r1.rep
  let r3 := prune (some src) r1.known r2.rep
  ⟨r3.rep, acts0 ++ r1.acts ++ r2.acts ++ r3.acts, r1.hashed⟩

/-! ### Naive fingerprint-everything variant (for the refinement claim)

Modelled from the spec: "the naive procedure that fingerprints every
file" — identical to phase 1 except that the source file's fingerprint
is computed before the existence check, for every visited file. -/

/-- The phase-1 file loop of the naive procedure: fingerprint first,
then decide by existence and fingerprint difference. -/
def pass1FilesNaive (logName : String) :
    List (String × FileData) → List (String × FileData) → List (String × Tree) →
    Res1 (List (String × FileData))
  | [], rfs, _ => ⟨rfs, [], [], []⟩
  | (n, fd) :: rest, rfs, rds =>
    if n = logName then
      pass1FilesNaive logName rest rfs rds
    else
      let srcDigest := calculate_hash fd.bytes
      if !((lookupEntry rfs n).isSome || (lookupEntry rds n).isSome) then
        let r := pass1FilesNaive logName rest (setEntry rfs n fd) rds
        ⟨r.rep, [n] :: r.known, .fileCopied [n] :: r.acts, [n] :: r.hashed⟩
      else
        if srcDigest = calculate_hash (((lookupEntry rfs n).map (·.bytes)).getD []) then
          let r := pass1FilesNaive logName rest rfs rds
          ⟨r.rep, [n] :: r.known, r.acts, [n] :: [n] :: r.hashed⟩
        else
          let r := pass1FilesNaive logName rest (setEntry rfs n fd) rds
          ⟨r.rep, [n] :: r.known, .fileUpdated [n] :: r.acts, [n] :: [n] :: r.hashed⟩

mutual
/-- The naive phase 1 on one source node. -/
def pass1Naive (logName : String) (sn rn : Tree) : Res1 Tree :=
  match sn, rn with
  | .node sfs sds, .node rfs rds =>
    let rf := pass1FilesNaive logName sfs rfs rds
    let rd := pass1DirsNaive logName sds rf.rep rds
    ⟨.node rf.rep rd.rep, rf.known ++ rd.known, rf.acts ++ rd.acts, rf.hashed ++ rd.hashed⟩
termination_by sizeOf sn

/-- The subdirectory walk of the naive phase 1. -/
def pass1DirsNaive (logName : String) (sds : List (String × Tree))
    (rfs : List (String × FileData)) (rds : List (String × Tree)) :
    Res1 (List (String × Tree)) :=
  match sds with
  | [] => ⟨rds, [], [], []⟩
  | (dn, sub) :: rest =>
    let created := !((lookupEntry rfs dn).isSome || (lookupEntry rds dn).isSome)
    let rc := pass1Naive logName sub ((lookupEntry rds dn).getD Tree.empty)
    let rr := pass1DirsNaive logName rest rfs (setEntry rds dn rc.rep)
    ⟨rr.rep,
     rc.known.map (dn :: ·) ++ rr.known,
     (if created then [Action.dirCreated [dn]] else []) ++
       rc.acts.map (Action.withParent dn) ++ rr.acts,
     rc.hashed.map (dn :: ·) ++ rr.hashed⟩
termination_by sizeOf sds
end

/-- Variant of `sync_folders` with the naive phase 1 in place of the optimized
one. -/
def sync_folders_naive (src : Tree) (rep : Option Tree) (logName : String) : SyncResult :=
  let acts0 : List Action := if rep.isNone then [Action.dirCreated []] else []
  let r1 := pass1Naive logName src (rep.getD Tree.empty)
  let r2 := pass2 src r1.rep
  let r3 := prune (some src) r1.known r2.rep
  ⟨r3.rep, acts0 ++ r1.acts ++ r2.acts ++ r3.acts, r1.hashed⟩

/-! ### Fallible reads (for the error-handling claim)

The phase-1 file loop again, but each listed source file may vanish (or
become unreadable) between `os.walk` listing it and `calculate_hash` /
`shutil.copy2` opening it; `none` as its data models that race.  Neither
`sync_folders` nor `calculate_hash` installs an exception handler, so
the first `OSError` propagates and the remaining iterations never run:
the `Except.error` result carries the replica files as they stood when
the exception was raised. -/

/-- Phase-1 file loop with fallible reads. -/
def pass1FilesRaising (logName : String) :
    List (String × Option FileData) → List (String × FileData) → List (String × Tree) →
    Except (List (String × FileData)) (List (String × FileData) × List Action)
  | [], rfs, _ => .ok (rfs, [])
  | (n, fdOpt) :: rest, rfs, rds =>
    if n = logName then
      pass1FilesRaising logName rest rfs rds
    else
      if !((lookupEntry rfs n).isSome || (lookupEntry rds n).isSome) then
        match fdOpt with
        | none => .error rfs   -- `shutil.copy2` raises; the pass aborts here
        | some fd =>
          match pass1FilesRaising logName rest (setEntry rfs n fd) rds with
          | .error r => .error r
          | .ok (rfs', as_) => .ok (rfs', .fileCopied [n] :: as_)
      else
        match fdOpt with
        | none => .error rfs   -- `calculate_hash(source_file)` raises; the pass aborts here
        | some fd =>
          if calculate_hash fd.bytes =
              calculate_hash (((lookupEntry rfs n).map (·.bytes)).getD []) then
            pass1FilesRaising logName rest rfs rds
          else
            match pass1FilesRaising logName rest (setEntry rfs n fd) rds with
            | .error r => .error r
            | .ok (rfs', as_) => .ok (rfs', .fileUpdated [n] :: as_)

/-! ### `main` (`src/app.py` lines 128-171) -/

/-- What `main` did by the time it returns or settles into the watch
loop. -/
structure MainOut where
  printedError : Bool
  loggingConfigured : Bool
  replica : Option Tree
  actions : List Action

/-- Model of `main`: derive the replica and log paths, then check
`os.path.exists(source_folder)` (line 148) before `setup_logging` and
before the initial `sync_folders` call; on a missing source it prints
and returns.  `sourceExists` abstracts the check; the watch/timer loop
that follows the initial sync is outside the model. -/
def main_model (sourceExists : Bool) (src : Tree) (rep : Option Tree)
    (logName : String) : MainOut :=
  if sourceExists then
    let out := sync_folders src rep logName
    ⟨false, true, some out.replica, out.actions⟩
  else
    ⟨true, false, rep, []⟩

/-! ### Specification-side helper definitions

Used only to state what the passes do; they are not part of the
program. -/

/-- Whether a relative path's final component is the log-file name —
the paths `filename == os.path.basename(log_file)` matches. -/
def isLogPath (logName : String) (q : List String) : Bool :=
  q.getLast? = some logName

/-- The file phase 1 leaves at a path, as a function of what the source
and the replica had there (`isLog`: the path is skipped). -/
def mergeFile (isLog : Bool) (srcF repF : Option FileData) : Option FileData :=
  match srcF with
  | none => repF
  | some fd =>
    if isLog then repF
    else
      match repF with
      | some fd0 =>
        if calculate_hash fd.bytes = calculate_hash fd0.bytes then some fd0 else some fd
      | none => some fd

/-- Whether the prune walk keeps the replica file at a path: the path is
a known source file and each ancestor directory still exists in the
source (otherwise an `rmtree` of an ancestor swallows it). -/
def keepFile (srcOpt : Option Tree) (known : List (List String)) : List String → Bool
  | [] => false
  | [n] => decide ([n] ∈ known)
  | dn :: m :: ns =>
    srcHas srcOpt dn &&
      keepFile (srcOpt.bind (fun s => lookupEntry s.dirs dn)) (childKnown dn known) (m :: ns)

/-! ## Association-list lemmas -/

theorem lookupEntry_setEntry_self {α : Type} (l : List (String × α)) (n : String) (v : α) :
    lookupEntry (setEntry l n v) n = some v := by
  induction l with
  | nil => simp [setEntry, lookupEntry]
  | cons e rest ih =>
    by_cases h : e.1 = n
    · simp [setEntry, h, lookupEntry]
    · simp [setEntry, h, lookupEntry, ih]

theorem lookupEntry_setEntry_other {α : Type} (l : List (String × α)) (n m : String) (v : α)
    (h : m ≠ n) : lookupEntry (setEntry l n v) m = lookupEntry l m := by
  have hnm : ¬(n = m) := fun h' => h h'.symm
  induction l with
  | nil => simp [setEntry, lookupEntry, hnm]
  | cons e rest ih =>
    by_cases he : e.1 = n
    · simp [setEntry, he, lookupEntry, hnm]
    · simp only [setEntry, if_neg he, lookupEntry]
      rw [ih]

theorem lookupEntry_eq_none_iff {α : Type} (l : List (String × α)) (n : String) :
    lookupEntry l n = none ↔ ∀ e ∈ l, e.1 ≠ n := by
  induction l with
  | nil => simp [lookupEntry]
  | cons e rest ih =>
    by_cases h : e.1 = n <;> simp [lookupEntry, h, ih]

theorem lookupEntry_isSome_iff {α : Type} (l : List (String × α)) (n : String) :
    (lookupEntry l n).isSome = true ↔ ∃ e ∈ l, e.1 = n := by
  induction l with
  | nil => simp [lookupEntry]
  | cons e rest ih =>
    by_cases h : e.1 = n <;> simp [lookupEntry, h, ih]

theorem lookupEntry_mem {α : Type} (l : List (String × α)) (n : String) (v : α)
    (h : lookupEntry l n = some v) : (n, v) ∈ l := by
  induction l with
  | nil => simp [lookupEntry] at h
  | cons e rest ih =>
    by_cases he : e.1 = n
    · rw [lookupEntry, if_pos he] at h
      injection h with hv
      cases e with
      | mk a b =>
        cases he
        cases hv
        exact List.mem_cons_self _ _
    · rw [lookupEntry, if_neg he] at h
      exact List.mem_cons_of_mem _ (ih h)

theorem lookupEntry_eq_none_of_not_mem_keys {α : Type} (l : List (String × α)) (n : String)
    (h : n ∉ l.map (·.1)) : lookupEntry l n = none := by
  rw [lookupEntry_eq_none_iff]
  intro e he hn
  exact h (hn ▸ List.mem_map_of_mem (·.1) he)

/-! ## `nodupB` lemmas -/

theorem nodupB_cons_iff (x : String) (xs : List String) :
    nodupB (x :: xs) = true ↔ x ∉ xs ∧ nodupB xs = true := by
  simp [nodupB]

theorem nodupB_append (a b : List String) (h : nodupB (a ++ b) = true) :
    nodupB a = true ∧ nodupB b = true ∧ ∀ x ∈ a, x ∉ b := by
  induction a with
  | nil => simpa [nodupB] using h
  | cons x xs ih =>
    rw [List.cons_append, nodupB_cons_iff] at h
    obtain ⟨hx, h⟩ := h
    obtain ⟨h1, h2, h3⟩ := ih h
    refine ⟨(nodupB_cons_iff _ _).2 ⟨fun hm => hx (List.mem_append_left _ hm), h1⟩, h2, ?_⟩
    intro y hy
    rcases List.mem_cons.1 hy with rfl | hy
    · exact fun hm => hx (List.mem_append_right _ hm)
    · exact h3 y hy

/-! ## Tree accessor lemmas -/

@[simp] theorem Tree.files_node (fs : List (String × FileData)) (ds : List (String × Tree)) :
    (Tree.node fs ds).files = fs := rfl

@[simp] theorem Tree.dirs_node (fs : List (String × FileData)) (ds : List (String × Tree)) :
    (Tree.node fs ds).dirs = ds := rfl

@[simp] theorem Tree.fileAt_nil (t : Tree) : t.fileAt [] = none := rfl

@[simp] theorem Tree.fileAt_single (t : Tree) (n : String) :
    t.fileAt [n] = lookupEntry t.files n := rfl

theorem Tree.fileAt_cons (t : Tree) (n m : String) (ns : List String) :
    t.fileAt (n :: m :: ns) =
      match lookupEntry t.dirs n with
      | some c => c.fileAt (m :: ns)
      | none => none := rfl

@[simp] theorem Tree.dirAt_nil (t : Tree) : t.dirAt [] = some t := rfl

theorem Tree.dirAt_cons (t : Tree) (n : String) (ns : List String) :
    t.dirAt (n :: ns) =
      match lookupEntry t.dirs n with
      | some c => c.dirAt ns
      | none => none := rfl

@[simp] theorem Tree.empty_fileAt (q : List String) : Tree.empty.fileAt q = none := by
  match q with
  | [] => rfl
  | [n] => rfl
  | n :: m :: ns => rw [Tree.fileAt_cons]; rfl

@[simp] theorem Tree.empty_dirAt_cons (n : String) (ns : List String) :
    Tree.empty.dirAt (n :: ns) = none := by
  rw [Tree.dirAt_cons]; rfl

@[simp] theorem Tree.pathExists_nil (t : Tree) : t.pathExists [] = true := by
  simp [Tree.pathExists]

theorem Tree.pathExists_empty (q : List String) (h : q ≠ []) :
    Tree.empty.pathExists q = false := by
  match q with
  | [] => exact absurd rfl h
  | n :: ns =>
    rw [Tree.pathExists, Bool.or_eq_false_iff]
    constructor
    · cases ns <;> simp [Tree.empty, Tree.fileAt_cons, lookupEntry]
    · simp [Tree.empty, Tree.dirAt_cons, lookupEntry]

theorem Tree.pathExists_single (t : Tree) (n : String) :
    t.pathExists [n] = ((lookupEntry t.files n).isSome || (lookupEntry t.dirs n).isSome) := by
  rw [Tree.pathExists]
  congr 1
  rw [Tree.dirAt_cons]
  cases lookupEntry t.dirs n <;> rfl

theorem Tree.pathExists_cons (t : Tree) (n m : String) (ns : List String) :
    t.pathExists (n :: m :: ns) =
      match lookupEntry t.dirs n with
      | some c => c.pathExists (m :: ns)
      | none => false := by
  rw [Tree.pathExists, Tree.fileAt_cons, Tree.dirAt_cons]
  cases lookupEntry t.dirs n <;> rfl

/-- A path holding a file passes every directory on the way: each proper
nonempty ancestor of a file path is a directory of the tree. -/
theorem Tree.dirAt_of_fileAt (t : Tree) (n : String) (ns : List String)
    (h : (t.fileAt (n :: ns)).isSome = true) (hne : ns ≠ []) :
    ∃ c, lookupEntry t.dirs n = some c ∧ (c.fileAt ns).isSome = true := by
  match ns with
  | [] => exact absurd rfl hne
  | m :: ms =>
    rw [Tree.fileAt_cons] at h
    cases hc : lookupEntry t.dirs n with
    | none => rw [hc] at h; simp at h
    | some c => rw [hc] at h; exact ⟨c, rfl, h⟩

/-! ## `isLogPath` lemmas -/

@[simp] theorem isLogPath_single (logName n : String) :
    isLogPath logName [n] = decide (n = logName) := by
  simp [isLogPath]

theorem isLogPath_cons (logName n m : String) (ns : List String) :
    isLogPath logName (n :: m :: ns) = isLogPath logName (m :: ns) := by
  simp [isLogPath, List.getLast?_cons_cons]

/-! ## `Action.withParent` and `childKnown` lemmas -/

theorem withParent_dirCreated_iff (dn : String) (a : Action) (q : List String) :
    Action.withParent dn a = .dirCreated q ↔ ∃ q', a = .dirCreated q' ∧ q = dn :: q' := by
  cases a <;> simp [Action.withParent, eq_comm]

theorem withParent_fileCopied_iff (dn : String) (a : Action) (q : List String) :
    Action.withParent dn a = .fileCopied q ↔ ∃ q', a = .fileCopied q' ∧ q = dn :: q' := by
  cases a <;> simp [Action.withParent, eq_comm]

theorem withParent_fileUpdated_iff (dn : String) (a : Action) (q : List String) :
    Action.withParent dn a = .fileUpdated q ↔ ∃ q', a = .fileUpdated q' ∧ q = dn :: q' := by
  cases a <;> simp [Action.withParent, eq_comm]

theorem withParent_fileRestored_iff (dn : String) (a : Action) (q : List String) :
    Action.withParent dn a = .fileRestored q ↔ ∃ q', a = .fileRestored q' ∧ q = dn :: q' := by
  cases a <;> simp [Action.withParent, eq_comm]

theorem withParent_fileDeleted_iff (dn : String) (a : Action) (q : List String) :
    Action.withParent dn a = .fileDeleted q ↔ ∃ q', a = .fileDeleted q' ∧ q = dn :: q' := by
  cases a <;> simp [Action.withParent, eq_comm]

theorem withParent_dirDeleted_iff (dn : String) (a : Action) (q : List String) :
    Action.withParent dn a = .dirDeleted q ↔ ∃ q', a = .dirDeleted q' ∧ q = dn :: q' := by
  cases a <;> simp [Action.withParent, eq_comm]

theorem childKnown_mem (dn : String) (known : List (List String)) (q : List String) :
    q ∈ childKnown dn known ↔ dn :: q ∈ known := by
  simp only [childKnown, List.mem_filterMap]
  constructor
  · rintro ⟨a, ha, hfa⟩
    match a with
    | [] => simp at hfa
    | x :: rest =>
      by_cases hx : x = dn
      · simp [hx] at hfa
        exact hx ▸ hfa ▸ ha
      · simp [hx] at hfa
  · intro h
    exact ⟨dn :: q, h, by simp⟩

/-! ## Custom induction principle for `Tree` -/

theorem tree_ind (motive : Tree → Prop)
    (h : ∀ fs ds, (∀ e ∈ ds, motive e.2) → motive (Tree.node fs ds)) :
    ∀ t, motive t := by
  have key : ∀ n t, sizeOf t ≤ n → motive t := by
    intro n
    induction n with
    | zero =>
      intro t ht
      cases t with
      | node fs ds => simp at ht
    | succ n ih =>
      intro t ht
      cases t with
      | node fs ds =>
        refine h fs ds (fun e he => ih e.2 ?_)
        have h1 := List.sizeOf_lt_of_mem he
        have h2 : sizeOf e.2 < sizeOf e := by cases e; simp
        simp at ht
        omega
  exact fun t => key (sizeOf t) t le_rfl

/-! ## `wf` and `compat` unfolding lemmas -/

theorem wfChildren_iff (l : List (String × Tree)) :
    wfChildren l = true ↔ ∀ e ∈ l, Tree.wf e.2 = true := by
  induction l with
  | nil => simp [wfChildren]
  | cons e rest ih =>
    cases e with
    | mk dn t => simp [wfChildren, ih]

theorem wf_node_iff (fs : List (String × FileData)) (ds : List (String × Tree)) :
    Tree.wf (.node fs ds) = true ↔
      nodupB (fs.map (·.1) ++ ds.map (·.1)) = true ∧ ∀ e ∈ ds, Tree.wf e.2 = true := by
  rw [Tree.wf]
  simp [wfChildren_iff]

theorem compatChildren_iff (l rds : List (String × Tree)) :
    compatChildren l rds = true ↔
      ∀ e ∈ l, ∀ c, lookupEntry rds e.1 = some c → compat e.2 c = true := by
  induction l with
  | nil => simp [compatChildren]
  | cons e rest ih =>
    cases e with
    | mk dn t =>
      rw [compatChildren]
      cases hc : lookupEntry rds dn with
      | none => simp [ih, hc]
      | some c => simp [ih, hc]

theorem any_keys_eq_false_iff {α : Type} (l : List (String × α)) (n : String) :
    (l.any (fun d => d.1 = n)) = false ↔ lookupEntry l n = none := by
  rw [lookupEntry_eq_none_iff]
  simp

theorem compat_node_iff (sfs rfs : List (String × FileData)) (sds rds : List (String × Tree)) :
    compat (.node sfs sds) (.node rfs rds) = true ↔
      (∀ e ∈ sfs, lookupEntry rds e.1 = none) ∧
      (∀ e ∈ sds, lookupEntry rfs e.1 = none) ∧
      (∀ e ∈ sds, ∀ c, lookupEntry rds e.1 = some c → compat e.2 c = true) := by
  rw [compat]
  simp only [Bool.and_eq_true, List.all_eq_true, compatChildren_iff, Bool.not_eq_true',
    any_keys_eq_false_iff]
  tauto

theorem compatChildren_nil_right (l : List (String × Tree)) :
    compatChildren l [] = true := by
  induction l with
  | nil => rfl
  | cons e rest ih =>
    cases e with
    | mk dn t => rw [compatChildren]; simp [lookupEntry, ih]

theorem compat_empty_right (t : Tree) : compat t Tree.empty = true := by
  cases t with
  | node fs ds =>
    rw [Tree.empty, compat]
    simp [compatChildren_nil_right, lookupEntry]

/-! ## The hash: chunking and injectivity -/

theorem readChunks_foldl :
    ∀ (k : Nat) (l : List Nat), l.length ≤ k →
      ∀ acc : List Nat, (readChunks l).foldl md5_update acc = acc ++ l := by
  intro k
  induction k with
  | zero =>
    intro l h acc
    match l with
    | [] => simp [readChunks]
    | b :: rest => simp at h
  | succ k ih =>
    intro l h acc
    match l with
    | [] => simp [readChunks]
    | b :: rest =>
      rw [readChunks]
      simp only [List.foldl_cons]
      rw [ih ((b :: rest).drop 4096) (by simp [List.length_drop] at h ⊢; omega)]
      simp [md5_update, List.append_assoc]

/-- The incremental chunked hash absorbs exactly the whole stream. -/
theorem calculate_hash_eq (l : List Nat) : calculate_hash l = l := by
  rw [calculate_hash, readChunks_foldl l.length l le_rfl]
  rfl

/-! ## `mergeFile` computation lemmas -/

@[simp] theorem mergeFile_none_left (b : Bool) (r : Option FileData) :
    mergeFile b none r = r := rfl

@[simp] theorem mergeFile_log (s r : Option FileData) : mergeFile true s r = r := by
  cases s <;> rfl

@[simp] theorem mergeFile_some_none (fd : FileData) :
    mergeFile false (some fd) none = some fd := rfl

theorem mergeFile_some_some (fd fd0 : FileData) :
    mergeFile false (some fd) (some fd0) =
      if calculate_hash fd.bytes = calculate_hash fd0.bytes then some fd0 else some fd := rfl

/-! ## Phase 1: file-loop characterization -/

theorem pass1Files_lookup (logName : String) :
    ∀ (sfs rfs : List (String × FileData)) (rds : List (String × Tree)),
      nodupB (sfs.map (·.1)) = true →
      (∀ e ∈ sfs, lookupEntry rds e.1 = none) →
      ∀ n, lookupEntry (pass1Files logName sfs rfs rds).rep n =
        mergeFile (decide (n = logName)) (lookupEntry sfs n) (lookupEntry rfs n) := by
  intro sfs
  induction sfs with
  | nil => intro rfs rds _ _ n; simp [pass1Files, lookupEntry]
  | cons e rest ih =>
    intro rfs rds hnodup hc n
    obtain ⟨n0, fd0⟩ := e
    rw [List.map_cons, nodupB_cons_iff] at hnodup
    have hrest_none : lookupEntry rest n0 = none :=
      lookupEntry_eq_none_of_not_mem_keys _ _ hnodup.1
    have hcn0 : lookupEntry rds n0 = none := hc (n0, fd0) (List.mem_cons_self _ _)
    have hc' : ∀ e ∈ rest, lookupEntry rds e.1 = none :=
      fun e he => hc e (List.mem_cons_of_mem _ he)
    by_cases hlog : n0 = logName
    · subst hlog
      have hstep : pass1Files n0 ((n0, fd0) :: rest) rfs rds = pass1Files n0 rest rfs rds := by
        simp [pass1Files]
      rw [hstep, ih rfs rds hnodup.2 hc' n]
      by_cases hn : n0 = n
      · subst hn
        simp [lookupEntry, hrest_none]
      · simp [lookupEntry, hn]
    · by_cases hmiss : lookupEntry rfs n0 = none
      · have hstep : (pass1Files logName ((n0, fd0) :: rest) rfs rds).rep =
            (pass1Files logName rest (setEntry rfs n0 fd0) rds).rep := by
          simp [pass1Files, hlog, hmiss, hcn0]
        rw [hstep, ih (setEntry rfs n0 fd0) rds hnodup.2 hc' n]
        by_cases hn : n0 = n
        · subst hn
          simp [lookupEntry, hrest_none, lookupEntry_setEntry_self, hmiss, mergeFile, hlog]
        · have hn' : n ≠ n0 := fun h => hn h.symm
          rw [lookupEntry_setEntry_other _ _ _ _ hn']
          simp [lookupEntry, hn]
      · obtain ⟨fd1, hsome⟩ := Option.ne_none_iff_exists'.1 hmiss
        by_cases hhash : calculate_hash fd0.bytes = calculate_hash fd1.bytes
        · have hstep : (pass1Files logName ((n0, fd0) :: rest) rfs rds).rep =
              (pass1Files logName rest rfs rds).rep := by
            simp [pass1Files, hlog, hsome, hhash]
          rw [hstep, ih rfs rds hnodup.2 hc' n]
          by_cases hn : n0 = n
          · subst hn
            simp [lookupEntry, hrest_none, hsome, mergeFile, hlog, hhash]
          · simp [lookupEntry, hn]
        · have hstep : (pass1Files logName ((n0, fd0) :: rest) rfs rds).rep =
              (pass1Files logName rest (setEntry rfs n0 fd0) rds).rep := by
            simp [pass1Files, hlog, hsome, hhash]
          rw [hstep, ih (setEntry rfs n0 fd0) rds hnodup.2 hc' n]
          by_cases hn : n0 = n
          · subst hn
            simp [lookupEntry, hrest_none, lookupEntry_setEntry_self, hsome, mergeFile, hlog,
              hhash]
          · have hn' : n ≠ n0 := fun h => hn h.symm
            rw [lookupEntry_setEntry_other _ _ _ _ hn']
            simp [lookupEntry, hn]

/-! ## Phase 1: subdirectory-walk characterization -/

theorem pass1_node (logName : String) (sfs rfs : List (String × FileData))
    (sds rds : List (String × Tree)) :
    pass1 logName (.node sfs sds) (.node rfs rds) =
      ⟨.node (pass1Files logName sfs rfs rds).rep
         (pass1Dirs logName sds (pass1Files logName sfs rfs rds).rep rds).rep,
       (pass1Files logName sfs rfs rds).known ++
         (pass1Dirs logName sds (pass1Files logName sfs rfs rds).rep rds).known,
       (pass1Files logName sfs rfs rds).acts ++
         (pass1Dirs logName sds (pass1Files logName sfs rfs rds).rep rds).acts,
       (pass1Files logName sfs rfs rds).hashed ++
         (pass1Dirs logName sds (pass1Files logName sfs rfs rds).rep rds).hashed⟩ := by
  rw [pass1]

theorem pass1Dirs_lookup (logName : String) :
    ∀ (sds : List (String × Tree)) (rfs : List (String × FileData)) (rds : List (String × Tree)),
      nodupB (sds.map (·.1)) = true →
      ∀ n, lookupEntry (pass1Dirs logName sds rfs rds).rep n =
        match lookupEntry sds n with
        | some sub => some (pass1 logName sub ((lookupEntry rds n).getD Tree.empty)).rep
        | none => lookupEntry rds n := by
  intro sds
  induction sds with
  | nil => intro rfs rds _ n; simp [pass1Dirs, lookupEntry]
  | cons e rest ih =>
    intro rfs rds hnodup n
    obtain ⟨dn, sub⟩ := e
    rw [List.map_cons, nodupB_cons_iff] at hnodup
    have hrest_none : lookupEntry rest dn = none :=
      lookupEntry_eq_none_of_not_mem_keys _ _ hnodup.1
    have hstep : (pass1Dirs logName ((dn, sub) :: rest) rfs rds).rep =
        (pass1Dirs logName rest rfs
          (setEntry rds dn (pass1 logName sub ((lookupEntry rds dn).getD Tree.empty)).rep)).rep := by
      simp [pass1Dirs]
    rw [hstep, ih _ _ hnodup.2 n]
    by_cases hn : dn = n
    · subst hn
      rw [hrest_none, lookupEntry, if_pos rfl]
      simp [lookupEntry_setEntry_self]
    · have hn' : n ≠ dn := fun h => hn h.symm
      rw [lookupEntry_setEntry_other _ _ _ _ hn', lookupEntry, if_neg hn]

/-! ## Phase 1: tree-level state characterization -/

theorem pass1_fileAt (logName : String) :
    ∀ sn : Tree, sn.wf = true → ∀ rn : Tree, compat sn rn = true → ∀ q,
      ((pass1 logName sn rn).rep).fileAt q =
        mergeFile (isLogPath logName q) (sn.fileAt q) (rn.fileAt q) := by
  intro sn
  induction sn using tree_ind with
  | h sfs sds ihsub =>
    intro hwf rn hcompat q
    obtain ⟨rfs, rds⟩ := rn
    rw [wf_node_iff] at hwf
    obtain ⟨hnd, hwfsub⟩ := hwf
    obtain ⟨hndf, hndd, hdisj⟩ := nodupB_append _ _ hnd
    rw [compat_node_iff] at hcompat
    obtain ⟨hcf, hcd, hcc⟩ := hcompat
    rw [pass1_node]
    match q with
    | [] => simp [isLogPath]
    | [n] =>
      rw [Tree.fileAt_single, Tree.files_node,
        pass1Files_lookup logName sfs rfs rds hndf hcf n]
      simp [isLogPath]
    | n :: m :: ns =>
      rw [Tree.fileAt_cons, Tree.dirs_node,
        pass1Dirs_lookup logName sds (pass1Files logName sfs rfs rds).rep rds hndd n]
      cases hs : lookupEntry sds n with
      | some sub =>
        have hmem : (n, sub) ∈ sds := lookupEntry_mem _ _ _ hs
        have hsubwf : sub.wf = true := hwfsub (n, sub) hmem
        have hsubcompat : compat sub ((lookupEntry rds n).getD Tree.empty) = true := by
          cases hrd : lookupEntry rds n with
          | some c => simpa using hcc (n, sub) hmem c hrd
          | none => simpa using compat_empty_right sub
        rw [isLogPath_cons, Tree.fileAt_cons, Tree.fileAt_cons, Tree.dirs_node, Tree.dirs_node,
          hs]
        cases hrd : lookupEntry rds n with
        | some c =>
          rw [hrd] at hsubcompat
          have := ihsub (n, sub) hmem hsubwf ((some c).getD Tree.empty) hsubcompat (m :: ns)
          simpa using this
        | none =>
          rw [hrd] at hsubcompat
          have := ihsub (n, sub) hmem hsubwf ((none : Option Tree).getD Tree.empty) hsubcompat
            (m :: ns)
          simpa using this
      | none =>
        rw [isLogPath_cons, Tree.fileAt_cons, Tree.fileAt_cons, Tree.dirs_node, Tree.dirs_node,
          hs]
        cases hrd : lookupEntry rds n <;> simp

/-! ## Exact output lists of the phase-1 loops -/

theorem bind_congr_of_mem {α β : Type} (l : List α) (f g : α → List β)
    (h : ∀ a ∈ l, f a = g a) : l.flatMap f = l.flatMap g := by
  induction l with
  | nil => rfl
  | cons a rest ih =>
    simp only [List.flatMap_cons]
    rw [h a (List.mem_cons_self _ _), ih (fun a ha => h a (List.mem_cons_of_mem _ ha))]

theorem lookupEntry_unique {α : Type} (l : List (String × α)) (n : String) (v : α)
    (hnodup : nodupB (l.map (·.1)) = true) :
    (n, v) ∈ l ↔ lookupEntry l n = some v := by
  constructor
  · intro hm
    induction l with
    | nil => simp at hm
    | cons e rest ih =>
      rw [List.map_cons, nodupB_cons_iff] at hnodup
      rcases List.mem_cons.1 hm with h | h
      · rw [← h, lookupEntry, if_pos rfl]
      · have hne : e.1 ≠ n := by
          intro hEq
          exact hnodup.1 (hEq ▸ (List.mem_map_of_mem (·.1) h : (n, v).1 ∈ rest.map (·.1)))
        rw [lookupEntry, if_neg hne]
        exact ih hnodup.2 h
  · exact lookupEntry_mem l n v

theorem pass1Files_known (logName : String) :
    ∀ (sfs rfs : List (String × FileData)) (rds : List (String × Tree)),
      (pass1Files logName sfs rfs rds).known =
        sfs.flatMap (fun e => if e.1 = logName then [] else [[e.1]]) := by
  intro sfs
  induction sfs with
  | nil => intro rfs rds; simp [pass1Files]
  | cons e rest ih =>
    intro rfs rds
    obtain ⟨n0, fd0⟩ := e
    by_cases hlog : n0 = logName
    · simp [pass1Files, hlog, ih]
    · by_cases hmiss : ((lookupEntry rfs n0).isSome || (lookupEntry rds n0).isSome) = false
      · simp [pass1Files, hlog, hmiss, ih]
      · rw [Bool.not_eq_false] at hmiss
        by_cases hhash : calculate_hash fd0.bytes =
            calculate_hash (((lookupEntry rfs n0).map (·.bytes)).getD [])
        · simp [pass1Files, hlog, hmiss, hhash, ih]
        · simp [pass1Files, hlog, hmiss, hhash, ih]

theorem pass1Files_acts (logName : String) :
    ∀ (sfs rfs : List (String × FileData)) (rds : List (String × Tree)),
      nodupB (sfs.map (·.1)) = true →
      (pass1Files logName sfs rfs rds).acts =
        sfs.flatMap (fun e =>
          if e.1 = logName then []
          else if !((lookupEntry rfs e.1).isSome || (lookupEntry rds e.1).isSome) then
            [.fileCopied [e.1]]
          else if calculate_hash e.2.bytes =
              calculate_hash (((lookupEntry rfs e.1).map (·.bytes)).getD []) then []
          else [.fileUpdated [e.1]]) := by
  intro sfs
  induction sfs with
  | nil => intro rfs rds _; simp [pass1Files]
  | cons e rest ih =>
    intro rfs rds hnodup
    obtain ⟨n0, fd0⟩ := e
    rw [List.map_cons, nodupB_cons_iff] at hnodup
    have hcongr : ∀ v, rest.flatMap (fun e =>
          if e.1 = logName then []
          else if !((lookupEntry (setEntry rfs n0 v) e.1).isSome ||
              (lookupEntry rds e.1).isSome) then [Action.fileCopied [e.1]]
          else if calculate_hash e.2.bytes =
              calculate_hash (((lookupEntry (setEntry rfs n0 v) e.1).map (·.bytes)).getD [])
            then []
          else [Action.fileUpdated [e.1]]) =
        rest.flatMap (fun e =>
          if e.1 = logName then []
          else if !((lookupEntry rfs e.1).isSome || (lookupEntry rds e.1).isSome) then
            [Action.fileCopied [e.1]]
          else if calculate_hash e.2.bytes =
              calculate_hash (((lookupEntry rfs e.1).map (·.bytes)).getD []) then []
          else [Action.fileUpdated [e.1]]) := by
      intro v
      apply bind_congr_of_mem
      intro a ha
      have hne : a.1 ≠ n0 := by
        intro hEq
        exact hnodup.1 (hEq ▸ (List.mem_map_of_mem (·.1) ha : a.1 ∈ rest.map (·.1)))
      rw [lookupEntry_setEntry_other _ _ _ _ hne]
    by_cases hlog : n0 = logName
    · simp [pass1Files, hlog, ih _ _ hnodup.2]
    · by_cases hmiss : ((lookupEntry rfs n0).isSome || (lookupEntry rds n0).isSome) = false
      · rw [show (pass1Files logName ((n0, fd0) :: rest) rfs rds).acts =
            Action.fileCopied [n0] ::
              (pass1Files logName rest (setEntry rfs n0 fd0) rds).acts from by
          simp [pass1Files, hlog, hmiss]]
        rw [ih _ _ hnodup.2, hcongr fd0]
        simp [hlog, hmiss]
      · rw [Bool.not_eq_false] at hmiss
        by_cases hhash : calculate_hash fd0.bytes =
            calculate_hash (((lookupEntry rfs n0).map (·.bytes)).getD [])
        · rw [show (pass1Files logName ((n0, fd0) :: rest) rfs rds).acts =
              (pass1Files logName rest rfs rds).acts from by
            simp [pass1Files, hlog, hmiss, hhash]]
          rw [ih _ _ hnodup.2]
          simp [hlog, hmiss, hhash]
        · rw [show (pass1Files logName ((n0, fd0) :: rest) rfs rds).acts =
              Action.fileUpdated [n0] ::
                (pass1Files logName rest (setEntry rfs n0 fd0) rds).acts from by
            simp [pass1Files, hlog, hmiss, hhash]]
          rw [ih _ _ hnodup.2, hcongr fd0]
          simp [hlog, hmiss, hhash]

theorem pass1Files_hashed (logName : String) :
    ∀ (sfs rfs : List (String × FileData)) (rds : List (String × Tree)),
      nodupB (sfs.map (·.1)) = true →
      (pass1Files logName sfs rfs rds).hashed =
        sfs.flatMap (fun e =>
          if e.1 = logName then []
          else if !((lookupEntry rfs e.1).isSome || (lookupEntry rds e.1).isSome) then []
          else [[e.1], [e.1]]) := by
  intro sfs
  induction sfs with
  | nil => intro rfs rds _; simp [pass1Files]
  | cons e rest ih =>
    intro rfs rds hnodup
    obtain ⟨n0, fd0⟩ := e
    rw [List.map_cons, nodupB_cons_iff] at hnodup
    have hcongr : ∀ v, rest.flatMap (fun e =>
          if e.1 = logName then []
          else if !((lookupEntry (setEntry rfs n0 v) e.1).isSome ||
              (lookupEntry rds e.1).isSome) then []
          else [[e.1], [e.1]]) =
        rest.flatMap (fun e =>
          if e.1 = logName then []
          else if !((lookupEntry rfs e.1).isSome || (lookupEntry rds e.1).isSome) then []
          else [[e.1], [e.1]]) := by
      intro v
      apply bind_congr_of_mem
      intro a ha
      have hne : a.1 ≠ n0 := by
        intro hEq
        exact hnodup.1 (hEq ▸ (List.mem_map_of_mem (·.1) ha : a.1 ∈ rest.map (·.1)))
      rw [lookupEntry_setEntry_other _ _ _ _ hne]
    by_cases hlog : n0 = logName
    · simp [pass1Files, hlog, ih _ _ hnodup.2]
    · by_cases hmiss : ((lookupEntry rfs n0).isSome || (lookupEntry rds n0).isSome) = false
      · rw [show (pass1Files logName ((n0, fd0) :: rest) rfs rds).hashed =
            (pass1Files logName rest (setEntry rfs n0 fd0) rds).hashed from by
          simp [pass1Files, hlog, hmiss]]
        rw [ih _ _ hnodup.2, hcongr fd0]
        simp [hlog, hmiss]
      · rw [Bool.not_eq_false] at hmiss
        by_cases hhash : calculate_hash fd0.bytes =
            calculate_hash (((lookupEntry rfs n0).map (·.bytes)).getD [])
        · rw [show (pass1Files logName ((n0, fd0) :: rest) rfs rds).hashed =
              [n0] :: [n0] :: (pass1Files logName rest rfs rds).hashed from by
            simp [pass1Files, hlog, hmiss, hhash]]
          rw [ih _ _ hnodup.2]
          simp [hlog, hmiss]
        · rw [show (pass1Files logName ((n0, fd0) :: rest) rfs rds).hashed =
              [n0] :: [n0] :: (pass1Files logName rest (setEntry rfs n0 fd0) rds).hashed from by
            simp [pass1Files, hlog, hmiss, hhash]]
          rw [ih _ _ hnodup.2, hcongr fd0]
          simp [hlog, hmiss]

theorem pass1Dirs_known (logName : String) :
    ∀ (sds : List (String × Tree)) (rfs : List (String × FileData)) (rds : List (String × Tree)),
      nodupB (sds.map (·.1)) = true →
      (pass1Dirs logName sds rfs rds).known =
        sds.flatMap (fun e =>
          ((pass1 logName e.2 ((lookupEntry rds e.1).getD Tree.empty)).known).map (e.1 :: ·)) := by
  intro sds
  induction sds with
  | nil => intro rfs rds _; simp [pass1Dirs]
  | cons e rest ih =>
    intro rfs rds hnodup
    obtain ⟨dn, sub⟩ := e
    rw [List.map_cons, nodupB_cons_iff] at hnodup
    rw [show (pass1Dirs logName ((dn, sub) :: rest) rfs rds).known =
        ((pass1 logName sub ((lookupEntry rds dn).getD Tree.empty)).known).map (dn :: ·) ++
          (pass1Dirs logName rest rfs
            (setEntry rds dn
              (pass1 logName sub ((lookupEntry rds dn).getD Tree.empty)).rep)).known from by
      simp [pass1Dirs]]
    rw [ih _ _ hnodup.2]
    rw [bind_congr_of_mem rest _ _ (fun a ha => by
      have hne : a.1 ≠ dn := by
        intro hEq
        exact hnodup.1 (hEq ▸ (List.mem_map_of_mem (·.1) ha : a.1 ∈ rest.map (·.1)))
      rw [lookupEntry_setEntry_other _ _ _ _ hne])]
    simp

theorem pass1Dirs_acts (logName : String) :
    ∀ (sds : List (String × Tree)) (rfs : List (String × FileData)) (rds : List (String × Tree)),
      nodupB (sds.map (·.1)) = true →
      (pass1Dirs logName sds rfs rds).acts =
        sds.flatMap (fun e =>
          (if !((lookupEntry rfs e.1).isSome || (lookupEntry rds e.1).isSome) then
            [Action.dirCreated [e.1]]
          else []) ++
          ((pass1 logName e.2 ((lookupEntry rds e.1).getD Tree.empty)).acts).map
            (Action.withParent e.1)) := by
  intro sds
  induction sds with
  | nil => intro rfs rds _; simp [pass1Dirs]
  | cons e rest ih =>
    intro rfs rds hnodup
    obtain ⟨dn, sub⟩ := e
    rw [List.map_cons, nodupB_cons_iff] at hnodup
    rw [show (pass1Dirs logName ((dn, sub) :: rest) rfs rds).acts =
        (if !((lookupEntry rfs dn).isSome || (lookupEntry rds dn).isSome) then
          [Action.dirCreated [dn]]
        else []) ++
          ((pass1 logName sub ((lookupEntry rds dn).getD Tree.empty)).acts).map
            (Action.withParent dn) ++
          (pass1Dirs logName rest rfs
            (setEntry rds dn
              (pass1 logName sub ((lookupEntry rds dn).getD Tree.empty)).rep)).acts from by
      simp [pass1Dirs]]
    rw [ih _ _ hnodup.2]
    rw [bind_congr_of_mem rest _ _ (fun a ha => by
      have hne : a.1 ≠ dn := by
        intro hEq
        exact hnodup.1 (hEq ▸ (List.mem_map_of_mem (·.1) ha : a.1 ∈ rest.map (·.1)))
      rw [lookupEntry_setEntry_other _ _ _ _ hne])]
    simp

theorem pass1Dirs_hashed (logName : String) :
    ∀ (sds : List (String × Tree)) (rfs : List (String × FileData)) (rds : List (String × Tree)),
      nodupB (sds.map (·.1)) = true →
      (pass1Dirs logName sds rfs rds).hashed =
        sds.flatMap (fun e =>
          ((pass1 logName e.2 ((lookupEntry rds e.1).getD Tree.empty)).hashed).map (e.1 :: ·)) := by
  intro sds
  induction sds with
  | nil => intro rfs rds _; simp [pass1Dirs]
  | cons e rest ih =>
    intro rfs rds hnodup
    obtain ⟨dn, sub⟩ := e
    rw [List.map_cons, nodupB_cons_iff] at hnodup
    rw [show (pass1Dirs logName ((dn, sub) :: rest) rfs rds).hashed =
        ((pass1 logName sub ((lookupEntry rds dn).getD Tree.empty)).hashed).map (dn :: ·) ++
          (pass1Dirs logName rest rfs
            (setEntry rds dn
              (pass1 logName sub ((lookupEntry rds dn).getD Tree.empty)).rep)).hashed from by
      simp [pass1Dirs]]
    rw [ih _ _ hnodup.2]
    rw [bind_congr_of_mem rest _ _ (fun a ha => by
      have hne : a.1 ≠ dn := by
        intro hEq
        exact hnodup.1 (hEq ▸ (List.mem_map_of_mem (·.1) ha : a.1 ∈ rest.map (·.1)))
      rw [lookupEntry_setEntry_other _ _ _ _ hne])]
    simp

/-! ## Phase 1: tree-level known-files and action characterizations -/

theorem exists_mem_iff_lookup {α : Type} (l : List (String × α)) (n : String) (P : α → Prop)
    (hnodup : nodupB (l.map (·.1)) = true) :
    (∃ e ∈ l, e.1 = n ∧ P e.2) ↔ ∃ v, lookupEntry l n = some v ∧ P v := by
  constructor
  · rintro ⟨e, he, hn, hp⟩
    refine ⟨e.2, (lookupEntry_unique l n e.2 hnodup).1 ?_, hp⟩
    have : (n, e.2) = e := by cases e; cases hn; rfl
    rw [this]; exact he
  · rintro ⟨v, hl, hp⟩
    exact ⟨(n, v), lookupEntry_mem _ _ _ hl, rfl, hp⟩

theorem pass1_known_iff (logName : String) :
    ∀ sn : Tree, sn.wf = true → ∀ (rn : Tree) (q : List String),
      q ∈ (pass1 logName sn rn).known ↔
        ((sn.fileAt q).isSome = true ∧ isLogPath logName q = false) := by
  intro sn
  induction sn using tree_ind with
  | h sfs sds ihsub =>
    intro hwf rn q
    obtain ⟨rfs, rds⟩ := rn
    rw [wf_node_iff] at hwf
    obtain ⟨hnd, hwfsub⟩ := hwf
    obtain ⟨hndf, hndd, hdisj⟩ := nodupB_append _ _ hnd
    rw [pass1_node]
    show q ∈ (pass1Files logName sfs rfs rds).known ++
        (pass1Dirs logName sds (pass1Files logName sfs rfs rds).rep rds).known ↔ _
    rw [List.mem_append, pass1Files_known, pass1Dirs_known logName sds _ rds hndd]
    match q with
    | [] =>
      simp only [List.mem_flatMap, List.mem_map]
      constructor
      · rintro (⟨e, he, hq⟩ | ⟨e, he, q', hq', hEq⟩)
        · by_cases hlog : e.1 = logName <;> simp [hlog] at hq
        · simp at hEq
      · rintro ⟨hsome, _⟩
        simp at hsome
    | [n] =>
      constructor
      · rintro (hfile | hdir)
        · obtain ⟨e, he, hq⟩ := List.mem_flatMap.1 hfile
          by_cases hlog : e.1 = logName
          · simp [hlog] at hq
          · simp [hlog] at hq
            subst hq
            refine ⟨?_, ?_⟩
            · rw [Tree.fileAt_single, Tree.files_node]
              exact (lookupEntry_isSome_iff _ _).2 ⟨e, he, rfl⟩
            · simpa using hlog
        · obtain ⟨e, he, hq⟩ := List.mem_flatMap.1 hdir
          obtain ⟨q', hq', hEq⟩ := List.mem_map.1 hq
          have hq0 : q' = [] := by
            cases hEq; rfl
          subst hq0
          have := (ihsub e he (hwfsub e he) _ []).1 hq'
          simp at this
      · rintro ⟨hsome, hlog⟩
        left
        rw [Tree.fileAt_single, Tree.files_node] at hsome
        obtain ⟨e, he, hn⟩ := (lookupEntry_isSome_iff _ _).1 hsome
        refine List.mem_flatMap.2 ⟨e, he, ?_⟩
        rw [isLogPath_single, decide_eq_false_iff_not] at hlog
        rw [if_neg (by rw [hn]; exact hlog)]
        simp [hn]
    | n :: m :: ns =>
      constructor
      · rintro (hfile | hdir)
        · obtain ⟨e, he, hq⟩ := List.mem_flatMap.1 hfile
          by_cases hlog : e.1 = logName <;> simp [hlog] at hq
        · obtain ⟨e, he, hq⟩ := List.mem_flatMap.1 hdir
          obtain ⟨q', hq', hEq⟩ := List.mem_map.1 hq
          have hEq1 : e.1 = n ∧ q' = m :: ns := by
            cases hEq; exact ⟨rfl, rfl⟩
          obtain ⟨hen, hq'eq⟩ := hEq1
          subst hq'eq
          have hih := (ihsub e he (hwfsub e he) _ (m :: ns)).1 hq'
          have hlk : lookupEntry sds n = some e.2 :=
            (lookupEntry_unique sds n e.2 hndd).1 (by
              have : (n, e.2) = e := by cases e; cases hen; rfl
              rw [this]; exact he)
          refine ⟨?_, ?_⟩
          · rw [Tree.fileAt_cons, Tree.dirs_node, hlk]
            exact hih.1
          · rw [isLogPath_cons]
            exact hih.2
      · rintro ⟨hsome, hlog⟩
        right
        rw [Tree.fileAt_cons, Tree.dirs_node] at hsome
        cases hlk : lookupEntry sds n with
        | none => rw [hlk] at hsome; simp at hsome
        | some sub =>
          rw [hlk] at hsome
          have hmem : (n, sub) ∈ sds := lookupEntry_mem _ _ _ hlk
          rw [isLogPath_cons] at hlog
          refine List.mem_flatMap.2 ⟨(n, sub), hmem, List.mem_map.2 ⟨m :: ns, ?_, rfl⟩⟩
          exact (ihsub (n, sub) hmem (hwfsub (n, sub) hmem) _ (m :: ns)).2 ⟨hsome, hlog⟩

theorem pass1_copied_iff (logName : String) :
    ∀ sn : Tree, sn.wf = true → ∀ rn : Tree, compat sn rn = true → ∀ q,
      Action.fileCopied q ∈ (pass1 logName sn rn).acts ↔
        ((sn.fileAt q).isSome = true ∧ isLogPath logName q = false ∧
          rn.pathExists q = false) := by
  intro sn
  induction sn using tree_ind with
  | h sfs sds ihsub =>
    intro hwf rn hcompat q
    obtain ⟨rfs, rds⟩ := rn
    rw [wf_node_iff] at hwf
    obtain ⟨hnd, hwfsub⟩ := hwf
    obtain ⟨hndf, hndd, hdisj⟩ := nodupB_append _ _ hnd
    rw [compat_node_iff] at hcompat
    obtain ⟨hcf, hcd, hcc⟩ := hcompat
    have hsubcompat : ∀ e ∈ sds, compat e.2 ((lookupEntry rds e.1).getD Tree.empty) = true := by
      intro e he
      cases hrd : lookupEntry rds e.1 with
      | some c => simpa [hrd] using hcc e he c hrd
      | none => simpa [hrd] using compat_empty_right e.2
    rw [pass1_node]
    show Action.fileCopied q ∈ (pass1Files logName sfs rfs rds).acts ++
        (pass1Dirs logName sds (pass1Files logName sfs rfs rds).rep rds).acts ↔ _
    rw [List.mem_append, pass1Files_acts logName sfs rfs rds hndf,
      pass1Dirs_acts logName sds _ rds hndd]
    match q with
    | [] =>
      constructor
      · rintro (hfile | hdir)
        · obtain ⟨e, he, hq⟩ := List.mem_flatMap.1 hfile
          by_cases hlog : e.1 = logName
          · simp [hlog] at hq
          · simp only [if_neg hlog] at hq
            split at hq <;> simp at hq
        · obtain ⟨e, he, hq⟩ := List.mem_flatMap.1 hdir
          rw [List.mem_append] at hq
          rcases hq with hq | hq
          · split at hq <;> simp at hq
          · obtain ⟨a, ha, hEq⟩ := List.mem_map.1 hq
            rw [withParent_fileCopied_iff] at hEq
            obtain ⟨q', _, hq'⟩ := hEq
            simp at hq'
      · rintro ⟨hsome, _⟩
        simp at hsome
    | [n] =>
      constructor
      · rintro (hfile | hdir)
        · obtain ⟨e, he, hq⟩ := List.mem_flatMap.1 hfile
          by_cases hlog : e.1 = logName
          · simp [hlog] at hq
          · simp only [if_neg hlog] at hq
            split at hq
            next hmiss =>
              simp only [List.mem_singleton, Action.fileCopied.injEq] at hq
              have hn : n = e.1 := by simpa using hq
              subst hn
              rw [Bool.not_eq_true', Bool.or_eq_false_iff] at hmiss
              refine ⟨?_, by simpa using hlog, ?_⟩
              · rw [Tree.fileAt_single, Tree.files_node]
                exact (lookupEntry_isSome_iff _ _).2 ⟨e, he, rfl⟩
              · rw [Tree.pathExists_single, Tree.files_node, Tree.dirs_node, hmiss.1, hmiss.2]
                rfl
            next =>
              split at hq <;> simp at hq
        · obtain ⟨e, he, hq⟩ := List.mem_flatMap.1 hdir
          rw [List.mem_append] at hq
          rcases hq with hq | hq
          · split at hq <;> simp at hq
          · obtain ⟨a, ha, hEq⟩ := List.mem_map.1 hq
            rw [withParent_fileCopied_iff] at hEq
            obtain ⟨q', ha', hq'⟩ := hEq
            have hq0 : q' = [] := by
              cases hq'; rfl
            subst hq0
            subst ha'
            have := (ihsub e he (hwfsub e he) _ (hsubcompat e he) []).1 ha
            simp at this
      · rintro ⟨hsome, hlog, hpath⟩
        left
        rw [Tree.fileAt_single, Tree.files_node] at hsome
        obtain ⟨e, he, hn⟩ := (lookupEntry_isSome_iff _ _).1 hsome
        rw [Tree.pathExists_single, Tree.files_node, Tree.dirs_node,
          Bool.or_eq_false_iff] at hpath
        rw [isLogPath_single, decide_eq_false_iff_not] at hlog
        refine List.mem_flatMap.2 ⟨e, he, ?_⟩
        rw [hn, if_neg hlog, if_pos (by rw [hpath.1, hpath.2]; rfl)]
        simp
    | n :: m :: ns =>
      constructor
      · rintro (hfile | hdir)
        · obtain ⟨e, he, hq⟩ := List.mem_flatMap.1 hfile
          by_cases hlog : e.1 = logName
          · simp [hlog] at hq
          · simp only [if_neg hlog] at hq
            split at hq
            · simp at hq
            · split at hq <;> simp at hq
        · obtain ⟨e, he, hq⟩ := List.mem_flatMap.1 hdir
          rw [List.mem_append] at hq
          rcases hq with hq | hq
          · split at hq <;> simp at hq
          · obtain ⟨a, ha, hEq⟩ := List.mem_map.1 hq
            rw [withParent_fileCopied_iff] at hEq
            obtain ⟨q', ha', hq'⟩ := hEq
            have hEq1 : e.1 = n ∧ q' = m :: ns := by
              cases hq'; exact ⟨rfl, rfl⟩
            obtain ⟨hen, hq'eq⟩ := hEq1
            subst hq'eq
            subst ha'
            have hih := (ihsub e he (hwfsub e he) _ (hsubcompat e he) (m :: ns)).1 ha
            rw [hen] at hih
            have hlk : lookupEntry sds n = some e.2 :=
              (lookupEntry_unique sds n e.2 hndd).1 (by
                have : (n, e.2) = e := by cases e; cases hen; rfl
                rw [this]; exact he)
            refine ⟨?_, ?_, ?_⟩
            · rw [Tree.fileAt_cons, Tree.dirs_node, hlk]
              exact hih.1
            · rw [isLogPath_cons]
              exact hih.2.1
            · rw [Tree.pathExists_cons, Tree.dirs_node]
              cases hrd : lookupEntry rds n with
              | some c =>
                have := hih.2.2
                rw [hrd] at this
                simpa using this
              | none => rfl
      · rintro ⟨hsome, hlog, hpath⟩
        right
        rw [Tree.fileAt_cons, Tree.dirs_node] at hsome
        cases hlk : lookupEntry sds n with
        | none => rw [hlk] at hsome; simp at hsome
        | some sub =>
          rw [hlk] at hsome
          have hmem : (n, sub) ∈ sds := lookupEntry_mem _ _ _ hlk
          rw [isLogPath_cons] at hlog
          rw [Tree.pathExists_cons, Tree.dirs_node] at hpath
          have hchild : (((lookupEntry rds n).getD Tree.empty).pathExists (m :: ns)) = false := by
            cases hrd : lookupEntry rds n with
            | some c => rw [hrd] at hpath; simpa using hpath
            | none => simpa using Tree.pathExists_empty (m :: ns) (by simp)
          refine List.mem_flatMap.2 ⟨(n, sub), hmem, List.mem_append.2 (Or.inr ?_)⟩
          refine List.mem_map.2 ⟨Action.fileCopied (m :: ns), ?_, by rw [withParent_fileCopied_iff]; exact ⟨m :: ns, rfl, rfl⟩⟩
          exact (ihsub (n, sub) hmem (hwfsub (n, sub) hmem) _ (hsubcompat (n, sub) hmem)
            (m :: ns)).2 ⟨hsome, hlog, hchild⟩

theorem pass1_updated_iff (logName : String) :
    ∀ sn : Tree, sn.wf = true → ∀ rn : Tree, compat sn rn = true → ∀ q,
      Action.fileUpdated q ∈ (pass1 logName sn rn).acts ↔
        ∃ fd fd0, sn.fileAt q = some fd ∧ rn.fileAt q = some fd0 ∧
          isLogPath logName q = false ∧
          calculate_hash fd.bytes ≠ calculate_hash fd0.bytes := by
  intro sn
  induction sn using tree_ind with
  | h sfs sds ihsub =>
    intro hwf rn hcompat q
    obtain ⟨rfs, rds⟩ := rn
    rw [wf_node_iff] at hwf
    obtain ⟨hnd, hwfsub⟩ := hwf
    obtain ⟨hndf, hndd, hdisj⟩ := nodupB_append _ _ hnd
    rw [compat_node_iff] at hcompat
    obtain ⟨hcf, hcd, hcc⟩ := hcompat
    have hsubcompat : ∀ e ∈ sds, compat e.2 ((lookupEntry rds e.1).getD Tree.empty) = true := by
      intro e he
      cases hrd : lookupEntry rds e.1 with
      | some c => simpa [hrd] using hcc e he c hrd
      | none => simpa [hrd] using compat_empty_right e.2
    rw [pass1_node]
    show Action.fileUpdated q ∈ (pass1Files logName sfs rfs rds).acts ++
        (pass1Dirs logName sds (pass1Files logName sfs rfs rds).rep rds).acts ↔ _
    rw [List.mem_append, pass1Files_acts logName sfs rfs rds hndf,
      pass1Dirs_acts logName sds _ rds hndd]
    match q with
    | [] =>
      constructor
      · rintro (hfile | hdir)
        · obtain ⟨e, he, hq⟩ := List.mem_flatMap.1 hfile
          by_cases hlog : e.1 = logName
          · simp [hlog] at hq
          · simp only [if_neg hlog] at hq
            split at hq
            · simp at hq
            · split at hq <;> simp at hq
        · obtain ⟨e, he, hq⟩ := List.mem_flatMap.1 hdir
          rw [List.mem_append] at hq
          rcases hq with hq | hq
          · split at hq <;> simp at hq
          · obtain ⟨a, ha, hEq⟩ := List.mem_map.1 hq
            rw [withParent_fileUpdated_iff] at hEq
            obtain ⟨q', _, hq'⟩ := hEq
            simp at hq'
      · rintro ⟨fd, fd0, hs, _⟩
        simp at hs
    | [n] =>
      constructor
      · rintro (hfile | hdir)
        · obtain ⟨e, he, hq⟩ := List.mem_flatMap.1 hfile
          by_cases hlog : e.1 = logName
          · simp [hlog] at hq
          · simp only [if_neg hlog] at hq
            split at hq
            · simp at hq
            · next hex =>
              split at hq
              · simp at hq
              · next hneq =>
                simp only [List.mem_singleton, Action.fileUpdated.injEq] at hq
                have hn : n = e.1 := by simpa using hq
                subst hn
                have hrds : lookupEntry rds e.1 = none := hcf e he
                have hex' : ((lookupEntry rfs e.1).isSome || (lookupEntry rds e.1).isSome)
                    = true := by
                  cases hb : ((lookupEntry rfs e.1).isSome || (lookupEntry rds e.1).isSome) with
                  | true => rfl
                  | false => exact absurd (by rw [hb]; rfl) hex
                rw [hrds] at hex'
                simp only [Option.isSome_none, Bool.or_false] at hex'
                obtain ⟨fd0, hfd0⟩ := Option.isSome_iff_exists.1 hex'
                rw [hfd0] at hneq
                refine ⟨e.2, fd0, ?_, ?_, by simpa using hlog, by simpa using hneq⟩
                · rw [Tree.fileAt_single, Tree.files_node]
                  exact (lookupEntry_unique sfs e.1 e.2 hndf).1 (by
                    have : (e.1, e.2) = e := by cases e; rfl
                    rw [this]; exact he)
                · rw [Tree.fileAt_single, Tree.files_node]
                  exact hfd0
        · obtain ⟨e, he, hq⟩ := List.mem_flatMap.1 hdir
          rw [List.mem_append] at hq
          rcases hq with hq | hq
          · split at hq <;> simp at hq
          · obtain ⟨a, ha, hEq⟩ := List.mem_map.1 hq
            rw [withParent_fileUpdated_iff] at hEq
            obtain ⟨q', ha', hq'⟩ := hEq
            have hq0 : q' = [] := by cases hq'; rfl
            subst hq0
            subst ha'
            have := (ihsub e he (hwfsub e he) _ (hsubcompat e he) []).1 ha
            obtain ⟨fd, fd0, hs, _⟩ := this
            simp at hs
      · rintro ⟨fd, fd0, hs, hr, hlog, hneq⟩
        left
        rw [Tree.fileAt_single, Tree.files_node] at hs hr
        rw [isLogPath_single, decide_eq_false_iff_not] at hlog
        refine List.mem_flatMap.2 ⟨(n, fd), lookupEntry_mem _ _ _ hs, ?_⟩
        show Action.fileUpdated [n] ∈
          if n = logName then []
          else if !((lookupEntry rfs n).isSome || (lookupEntry rds n).isSome) then
            [Action.fileCopied [n]]
          else if calculate_hash fd.bytes =
              calculate_hash (((lookupEntry rfs n).map (·.bytes)).getD []) then []
          else [Action.fileUpdated [n]]
        rw [if_neg hlog, if_neg (by rw [hr]; simp), if_neg (by rw [hr]; simpa using hneq)]
        simp
    | n :: m :: ns =>
      constructor
      · rintro (hfile | hdir)
        · obtain ⟨e, he, hq⟩ := List.mem_flatMap.1 hfile
          by_cases hlog : e.1 = logName
          · simp [hlog] at hq
          · simp only [if_neg hlog] at hq
            split at hq
            · simp at hq
            · split at hq <;> simp at hq
        · obtain ⟨e, he, hq⟩ := List.mem_flatMap.1 hdir
          rw [List.mem_append] at hq
          rcases hq with hq | hq
          · split at hq <;> simp at hq
          · obtain ⟨a, ha, hEq⟩ := List.mem_map.1 hq
            rw [withParent_fileUpdated_iff] at hEq
            obtain ⟨q', ha', hq'⟩ := hEq
            have hEq1 : e.1 = n ∧ q' = m :: ns := by
              cases hq'; exact ⟨rfl, rfl⟩
            obtain ⟨hen, hq'eq⟩ := hEq1
            subst hq'eq
            subst ha'
            have hih := (ihsub e he (hwfsub e he) _ (hsubcompat e he) (m :: ns)).1 ha
            rw [hen] at hih
            obtain ⟨fd, fd0, hsub, hchild, hlog', hneq⟩ := hih
            have hlk : lookupEntry sds n = some e.2 :=
              (lookupEntry_unique sds n e.2 hndd).1 (by
                have : (n, e.2) = e := by cases e; cases hen; rfl
                rw [this]; exact he)
            refine ⟨fd, fd0, ?_, ?_, ?_, hneq⟩
            · rw [Tree.fileAt_cons, Tree.dirs_node, hlk]
              exact hsub
            · rw [Tree.fileAt_cons, Tree.dirs_node]
              cases hrd : lookupEntry rds n with
              | some c =>
                rw [hrd] at hchild
                simpa using hchild
              | none =>
                rw [hrd] at hchild
                simp at hchild
            · rw [isLogPath_cons]
              exact hlog'
      · rintro ⟨fd, fd0, hs, hr, hlog, hneq⟩
        right
        rw [Tree.fileAt_cons, Tree.dirs_node] at hs
        cases hlk : lookupEntry sds n with
        | none => rw [hlk] at hs; simp at hs
        | some sub =>
          rw [hlk] at hs
          rw [Tree.fileAt_cons, Tree.dirs_node] at hr
          cases hrd : lookupEntry rds n with
          | none => rw [hrd] at hr; simp at hr
          | some c =>
            rw [hrd] at hr
            have hmem : (n, sub) ∈ sds := lookupEntry_mem _ _ _ hlk
            rw [isLogPath_cons] at hlog
            refine List.mem_flatMap.2 ⟨(n, sub), hmem, List.mem_append.2 (Or.inr ?_)⟩
            refine List.mem_map.2 ⟨Action.fileUpdated (m :: ns), ?_,
              by rw [withParent_fileUpdated_iff]; exact ⟨m :: ns, rfl, rfl⟩⟩
            refine (ihsub (n, sub) hmem (hwfsub (n, sub) hmem) _ (hsubcompat (n, sub) hmem)
              (m :: ns)).2 ⟨fd, fd0, hs, ?_, hlog, hneq⟩
            show (((lookupEntry rds n).getD Tree.empty).fileAt (m :: ns)) = some fd0
            rw [hrd]
            simpa using hr

theorem pass1_hashed_imp (logName : String) :
    ∀ sn : Tree, sn.wf = true → ∀ (rn : Tree) (q : List String),
      q ∈ (pass1 logName sn rn).hashed →
        (sn.fileAt q).isSome = true ∧ isLogPath logName q = false ∧
          rn.pathExists q = true := by
  intro sn
  induction sn using tree_ind with
  | h sfs sds ihsub =>
    intro hwf rn q hmem
    obtain ⟨rfs, rds⟩ := rn
    rw [wf_node_iff] at hwf
    obtain ⟨hnd, hwfsub⟩ := hwf
    obtain ⟨hndf, hndd, hdisj⟩ := nodupB_append _ _ hnd
    rw [pass1_node] at hmem
    rw [show (Res1.mk (Tree.node (pass1Files logName sfs rfs rds).rep
        (pass1Dirs logName sds (pass1Files logName sfs rfs rds).rep rds).rep)
        ((pass1Files logName sfs rfs rds).known ++
          (pass1Dirs logName sds (pass1Files logName sfs rfs rds).rep rds).known)
        ((pass1Files logName sfs rfs rds).acts ++
          (pass1Dirs logName sds (pass1Files logName sfs rfs rds).rep rds).acts)
        ((pass1Files logName sfs rfs rds).hashed ++
          (pass1Dirs logName sds (pass1Files logName sfs rfs rds).rep rds).hashed)).hashed =
      (pass1Files logName sfs rfs rds).hashed ++
        (pass1Dirs logName sds (pass1Files logName sfs rfs rds).rep rds).hashed from rfl] at hmem
    rw [List.mem_append, pass1Files_hashed logName sfs rfs rds hndf,
      pass1Dirs_hashed logName sds _ rds hndd] at hmem
    rcases hmem with hfile | hdir
    · obtain ⟨e, he, hq⟩ := List.mem_flatMap.1 hfile
      by_cases hlog : e.1 = logName
      · simp [hlog] at hq
      · simp only [if_neg hlog] at hq
        split at hq
        · simp at hq
        · next hex =>
          have hex' : ((lookupEntry rfs e.1).isSome || (lookupEntry rds e.1).isSome) = true := by
            cases hb : ((lookupEntry rfs e.1).isSome || (lookupEntry rds e.1).isSome) with
            | true => rfl
            | false => exact absurd (by rw [hb]; rfl) hex
          have hq1 : q = [e.1] := by
            rcases List.mem_cons.1 hq with h | h
            · exact h
            · simpa using h
          subst hq1
          refine ⟨?_, by simpa using hlog, ?_⟩
          · rw [Tree.fileAt_single, Tree.files_node]
            exact (lookupEntry_isSome_iff _ _).2 ⟨e, he, rfl⟩
          · rw [Tree.pathExists_single, Tree.files_node, Tree.dirs_node]
            exact hex'
    · obtain ⟨e, he, hq⟩ := List.mem_flatMap.1 hdir
      obtain ⟨q', hq', hEq⟩ := List.mem_map.1 hq
      subst hEq
      have hih := ihsub e he (hwfsub e he) _ q' hq'
      match q' with
      | [] => simp at hih
      | m :: ns =>
        have hlk : lookupEntry sds e.1 = some e.2 :=
          (lookupEntry_unique sds e.1 e.2 hndd).1 (by
            have : (e.1, e.2) = e := by cases e; rfl
            rw [this]; exact he)
        refine ⟨?_, ?_, ?_⟩
        · rw [Tree.fileAt_cons, Tree.dirs_node, hlk]
          exact hih.1
        · rw [isLogPath_cons]
          exact hih.2.1
        · rw [Tree.pathExists_cons, Tree.dirs_node]
          cases hrd : lookupEntry rds e.1 with
          | some c =>
            have := hih.2.2
            rw [hrd] at this
            simpa using this
          | none =>
            have := hih.2.2
            rw [hrd] at this
            rw [show ((none : Option Tree).getD Tree.empty) = Tree.empty from rfl] at this
            rw [Tree.pathExists_empty (m :: ns) (by simp)] at this
            exact absurd this (by simp)

/-! ## Shapes of the actions each pass can emit -/

theorem pass1Files_shape (logName : String) :
    ∀ (sfs rfs : List (String × FileData)) (rds : List (String × Tree)),
      ∀ a ∈ (pass1Files logName sfs rfs rds).acts,
        (∃ p, a = Action.fileCopied p) ∨ (∃ p, a = Action.fileUpdated p) := by
  intro sfs
  induction sfs with
  | nil => intro rfs rds a ha; simp [pass1Files] at ha
  | cons e rest ih =>
    intro rfs rds a ha
    obtain ⟨n0, fd0⟩ := e
    by_cases hlog : n0 = logName
    · rw [show (pass1Files logName ((n0, fd0) :: rest) rfs rds).acts =
          (pass1Files logName rest rfs rds).acts from by simp [pass1Files, hlog]] at ha
      exact ih rfs rds a ha
    · by_cases hmiss : ((lookupEntry rfs n0).isSome || (lookupEntry rds n0).isSome) = false
      · rw [show (pass1Files logName ((n0, fd0) :: rest) rfs rds).acts =
            Action.fileCopied [n0] ::
              (pass1Files logName rest (setEntry rfs n0 fd0) rds).acts from by
          simp [pass1Files, hlog, hmiss]] at ha
        rcases List.mem_cons.1 ha with h | h
        · exact Or.inl ⟨[n0], h⟩
        · exact ih _ rds a h
      · rw [Bool.not_eq_false] at hmiss
        by_cases hhash : calculate_hash fd0.bytes =
            calculate_hash (((lookupEntry rfs n0).map (·.bytes)).getD [])
        · rw [show (pass1Files logName ((n0, fd0) :: rest) rfs rds).acts =
              (pass1Files logName rest rfs rds).acts from by
            simp [pass1Files, hlog, hmiss, hhash]] at ha
          exact ih rfs rds a ha
        · rw [show (pass1Files logName ((n0, fd0) :: rest) rfs rds).acts =
              Action.fileUpdated [n0] ::
                (pass1Files logName rest (setEntry rfs n0 fd0) rds).acts from by
            simp [pass1Files, hlog, hmiss, hhash]] at ha
          rcases List.mem_cons.1 ha with h | h
          · exact Or.inr ⟨[n0], h⟩
          · exact ih _ rds a h

theorem pass1Dirs_shape (logName : String) :
    ∀ (sds : List (String × Tree)) (rfs : List (String × FileData)) (rds : List (String × Tree)),
      (∀ e ∈ sds, ∀ (rn : Tree), ∀ a ∈ (pass1 logName e.2 rn).acts,
        (∃ p, a = Action.dirCreated p) ∨ (∃ p, a = Action.fileCopied p) ∨
          (∃ p, a = Action.fileUpdated p)) →
      ∀ a ∈ (pass1Dirs logName sds rfs rds).acts,
        (∃ p, a = Action.dirCreated p) ∨ (∃ p, a = Action.fileCopied p) ∨
          (∃ p, a = Action.fileUpdated p) := by
  intro sds
  induction sds with
  | nil => intro rfs rds _ a ha; simp [pass1Dirs] at ha
  | cons e rest ih =>
    intro rfs rds H a ha
    obtain ⟨dn, sub⟩ := e
    rw [show (pass1Dirs logName ((dn, sub) :: rest) rfs rds).acts =
        (if !((lookupEntry rfs dn).isSome || (lookupEntry rds dn).isSome) then
          [Action.dirCreated [dn]]
        else []) ++
          ((pass1 logName sub ((lookupEntry rds dn).getD Tree.empty)).acts).map
            (Action.withParent dn) ++
          (pass1Dirs logName rest rfs
            (setEntry rds dn
              (pass1 logName sub ((lookupEntry rds dn).getD Tree.empty)).rep)).acts from by
      simp [pass1Dirs]] at ha
    rw [List.append_assoc, List.mem_append, List.mem_append] at ha
    rcases ha with h | h | h
    · split at h
      · exact Or.inl ⟨[dn], by simpa using h⟩
      · simp at h
    · obtain ⟨b, hb, hEq⟩ := List.mem_map.1 h
      have := H (dn, sub) (List.mem_cons_self _ _) _ b hb
      rcases this with ⟨p, hp⟩ | ⟨p, hp⟩ | ⟨p, hp⟩ <;> subst hp <;> subst hEq
      · exact Or.inl ⟨dn :: p, rfl⟩
      · exact Or.inr (Or.inl ⟨dn :: p, rfl⟩)
      · exact Or.inr (Or.inr ⟨dn :: p, rfl⟩)
    · exact ih rfs _ (fun e he => H e (List.mem_cons_of_mem _ he)) a h

theorem pass1_shape (logName : String) :
    ∀ (sn rn : Tree), ∀ a ∈ (pass1 logName sn rn).acts,
      (∃ p, a = Action.dirCreated p) ∨ (∃ p, a = Action.fileCopied p) ∨
        (∃ p, a = Action.fileUpdated p) := by
  intro sn
  induction sn using tree_ind with
  | h sfs sds ihsub =>
    intro rn a ha
    obtain ⟨rfs, rds⟩ := rn
    rw [pass1_node] at ha
    replace ha : a ∈ (pass1Files logName sfs rfs rds).acts ++
        (pass1Dirs logName sds (pass1Files logName sfs rfs rds).rep rds).acts := ha
    rcases List.mem_append.1 ha with h | h
    · rcases pass1Files_shape logName sfs rfs rds a h with ⟨p, hp⟩ | ⟨p, hp⟩
      · exact Or.inr (Or.inl ⟨p, hp⟩)
      · exact Or.inr (Or.inr ⟨p, hp⟩)
    · exact pass1Dirs_shape logName sds _ rds (fun e he rn' => ihsub e he rn') a h

/-! ## Phase 2: state and action characterizations -/

theorem pass2_node (sfs rfs : List (String × FileData)) (sds rds : List (String × Tree)) :
    pass2 (.node sfs sds) (.node rfs rds) =
      ⟨.node (pass2Files sfs rfs rds).rep
         (pass2Dirs sds (pass2Files sfs rfs rds).rep rds).rep,
       (pass2Files sfs rfs rds).acts ++
         (pass2Dirs sds (pass2Files sfs rfs rds).rep rds).acts⟩ := by
  rw [pass2]

theorem pass2Files_lookup :
    ∀ (sfs rfs : List (String × FileData)) (rds : List (String × Tree)) (n : String),
      lookupEntry (pass2Files sfs rfs rds).rep n =
        if ((lookupEntry sfs n).isSome = true ∧ (lookupEntry rfs n).isSome = false ∧
            (lookupEntry rds n).isSome = false) then lookupEntry sfs n
        else lookupEntry rfs n := by
  intro sfs
  induction sfs with
  | nil =>
    intro rfs rds n
    simp [pass2Files, lookupEntry]
  | cons e rest ih =>
    intro rfs rds n
    obtain ⟨n0, fd0⟩ := e
    by_cases hmiss : (lookupEntry rfs n0).isSome = false ∧ (lookupEntry rds n0).isSome = false
    · rw [show (pass2Files ((n0, fd0) :: rest) rfs rds).rep =
          (pass2Files rest (setEntry rfs n0 fd0) rds).rep from by
        simp [pass2Files, hmiss.1, hmiss.2]]
      rw [ih (setEntry rfs n0 fd0) rds n]
      by_cases hn : n0 = n
      · subst hn
        rw [lookupEntry_setEntry_self]
        rw [show lookupEntry ((n0, fd0) :: rest) n0 = some fd0 from by
          rw [lookupEntry, if_pos rfl]]
        rw [hmiss.1, hmiss.2]
        simp
      · have hn' : n ≠ n0 := fun h => hn h.symm
        rw [lookupEntry_setEntry_other _ _ _ _ hn']
        rw [show lookupEntry ((n0, fd0) :: rest) n = lookupEntry rest n from by
          rw [lookupEntry, if_neg hn]]
    · have hex : ((lookupEntry rfs n0).isSome || (lookupEntry rds n0).isSome) = true := by
        rcases Decidable.not_and_iff_or_not.1 hmiss with h | h
        · rw [Bool.not_eq_false] at h
          rw [h]; rfl
        · rw [Bool.not_eq_false] at h
          rw [h]; simp
      rw [show (pass2Files ((n0, fd0) :: rest) rfs rds).rep =
          (pass2Files rest rfs rds).rep from by simp [pass2Files, hex]]
      rw [ih rfs rds n]
      by_cases hn : n0 = n
      · subst hn
        rw [show lookupEntry ((n0, fd0) :: rest) n0 = some fd0 from by
          rw [lookupEntry, if_pos rfl]]
        by_cases hc : (lookupEntry rest n0).isSome = true ∧
            (lookupEntry rfs n0).isSome = false ∧ (lookupEntry rds n0).isSome = false
        · exact absurd ⟨hc.2.1, hc.2.2⟩ hmiss
        · rw [if_neg hc, if_neg (fun hc' => hmiss ⟨hc'.2.1, hc'.2.2⟩)]
      · rw [show lookupEntry ((n0, fd0) :: rest) n = lookupEntry rest n from by
          rw [lookupEntry, if_neg hn]]

theorem pass2Dirs_lookup :
    ∀ (sds : List (String × Tree)) (rfs : List (String × FileData)) (rds : List (String × Tree)),
      nodupB (sds.map (·.1)) = true →
      ∀ n, lookupEntry (pass2Dirs sds rfs rds).rep n =
        match lookupEntry sds n with
        | some sub => some (pass2 sub ((lookupEntry rds n).getD Tree.empty)).rep
        | none => lookupEntry rds n := by
  intro sds
  induction sds with
  | nil => intro rfs rds _ n; simp [pass2Dirs, lookupEntry]
  | cons e rest ih =>
    intro rfs rds hnodup n
    obtain ⟨dn, sub⟩ := e
    rw [List.map_cons, nodupB_cons_iff] at hnodup
    have hrest_none : lookupEntry rest dn = none :=
      lookupEntry_eq_none_of_not_mem_keys _ _ hnodup.1
    rw [show (pass2Dirs ((dn, sub) :: rest) rfs rds).rep =
        (pass2Dirs rest rfs
          (setEntry rds dn (pass2 sub ((lookupEntry rds dn).getD Tree.empty)).rep)).rep from by
      simp [pass2Dirs]]
    rw [ih _ _ hnodup.2 n]
    by_cases hn : dn = n
    · subst hn
      rw [hrest_none, lookupEntry, if_pos rfl]
      simp [lookupEntry_setEntry_self]
    · have hn' : n ≠ dn := fun h => hn h.symm
      rw [lookupEntry_setEntry_other _ _ _ _ hn', lookupEntry, if_neg hn]

theorem pass2_fileAt :
    ∀ sn : Tree, sn.wf = true → ∀ (rn : Tree) (q : List String),
      (pass2 sn rn).rep.fileAt q =
        if ((sn.fileAt q).isSome = true ∧ rn.pathExists q = false) then sn.fileAt q
        else rn.fileAt q := by
  intro sn
  induction sn using tree_ind with
  | h sfs sds ihsub =>
    intro hwf rn q
    obtain ⟨rfs, rds⟩ := rn
    rw [wf_node_iff] at hwf
    obtain ⟨hnd, hwfsub⟩ := hwf
    obtain ⟨hndf, hndd, hdisj⟩ := nodupB_append _ _ hnd
    rw [pass2_node]
    match q with
    | [] => simp
    | [n] =>
      show lookupEntry (pass2Files sfs rfs rds).rep n = _
      rw [pass2Files_lookup sfs rfs rds n]
      rw [Tree.fileAt_single, Tree.fileAt_single, Tree.files_node, Tree.files_node,
        Tree.pathExists_single, Tree.files_node, Tree.dirs_node]
      refine if_congr ?_ rfl rfl
      constructor
      · rintro ⟨h1, h2, h3⟩
        exact ⟨h1, by rw [h2, h3]; rfl⟩
      · rintro ⟨h1, h2⟩
        rw [Bool.or_eq_false_iff] at h2
        exact ⟨h1, h2.1, h2.2⟩
    | n :: m :: ns =>
      show (Tree.node (pass2Files sfs rfs rds).rep
          (pass2Dirs sds (pass2Files sfs rfs rds).rep rds).rep).fileAt (n :: m :: ns) = _
      rw [Tree.fileAt_cons, Tree.dirs_node,
        pass2Dirs_lookup sds (pass2Files sfs rfs rds).rep rds hndd n]
      rw [Tree.fileAt_cons, Tree.dirs_node, Tree.pathExists_cons, Tree.dirs_node,
        Tree.fileAt_cons, Tree.dirs_node]
      cases hs : lookupEntry sds n with
      | some sub =>
        have hmem : (n, sub) ∈ sds := lookupEntry_mem _ _ _ hs
        have hih := ihsub (n, sub) hmem (hwfsub (n, sub) hmem)
          ((lookupEntry rds n).getD Tree.empty) (m :: ns)
        cases hrd : lookupEntry rds n with
        | some c =>
          rw [hrd] at hih
          simpa using hih
        | none =>
          rw [hrd] at hih
          rw [show ((none : Option Tree).getD Tree.empty) = Tree.empty from rfl] at hih
          rw [Tree.pathExists_empty (m :: ns) (by simp)] at hih
          simpa using hih
      | none =>
        cases hrd : lookupEntry rds n <;> simp

theorem pass2Files_acts :
    ∀ (sfs rfs : List (String × FileData)) (rds : List (String × Tree)),
      nodupB (sfs.map (·.1)) = true →
      (pass2Files sfs rfs rds).acts =
        sfs.flatMap (fun e =>
          if !((lookupEntry rfs e.1).isSome || (lookupEntry rds e.1).isSome) then
            [Action.fileRestored [e.1]]
          else []) := by
  intro sfs
  induction sfs with
  | nil => intro rfs rds _; simp [pass2Files]
  | cons e rest ih =>
    intro rfs rds hnodup
    obtain ⟨n0, fd0⟩ := e
    rw [List.map_cons, nodupB_cons_iff] at hnodup
    have hcongr : ∀ v, rest.flatMap (fun e =>
          if !((lookupEntry (setEntry rfs n0 v) e.1).isSome ||
              (lookupEntry rds e.1).isSome) then [Action.fileRestored [e.1]]
          else []) =
        rest.flatMap (fun e =>
          if !((lookupEntry rfs e.1).isSome || (lookupEntry rds e.1).isSome) then
            [Action.fileRestored [e.1]]
          else []) := by
      intro v
      apply bind_congr_of_mem
      intro a ha
      have hne : a.1 ≠ n0 := by
        intro hEq
        exact hnodup.1 (hEq ▸ (List.mem_map_of_mem (·.1) ha : a.1 ∈ rest.map (·.1)))
      rw [lookupEntry_setEntry_other _ _ _ _ hne]
    by_cases hmiss : ((lookupEntry rfs n0).isSome || (lookupEntry rds n0).isSome) = false
    · rw [show (pass2Files ((n0, fd0) :: rest) rfs rds).acts =
          Action.fileRestored [n0] :: (pass2Files rest (setEntry rfs n0 fd0) rds).acts from by
        simp [pass2Files, hmiss]]
      rw [ih _ _ hnodup.2, hcongr fd0]
      simp [hmiss]
    · rw [Bool.not_eq_false] at hmiss
      rw [show (pass2Files ((n0, fd0) :: rest) rfs rds).acts =
          (pass2Files rest rfs rds).acts from by simp [pass2Files, hmiss]]
      rw [ih _ _ hnodup.2]
      simp [hmiss]

theorem pass2Dirs_acts :
    ∀ (sds : List (String × Tree)) (rfs : List (String × FileData)) (rds : List (String × Tree)),
      nodupB (sds.map (·.1)) = true →
      (pass2Dirs sds rfs rds).acts =
        sds.flatMap (fun e =>
          (if !((lookupEntry rfs e.1).isSome || (lookupEntry rds e.1).isSome) then
            [Action.dirCreated [e.1]]
          else []) ++
          ((pass2 e.2 ((lookupEntry rds e.1).getD Tree.empty)).acts).map
            (Action.withParent e.1)) := by
  intro sds
  induction sds with
  | nil => intro rfs rds _; simp [pass2Dirs]
  | cons e rest ih =>
    intro rfs rds hnodup
    obtain ⟨dn, sub⟩ := e
    rw [List.map_cons, nodupB_cons_iff] at hnodup
    rw [show (pass2Dirs ((dn, sub) :: rest) rfs rds).acts =
        (if !((lookupEntry rfs dn).isSome || (lookupEntry rds dn).isSome) then
          [Action.dirCreated [dn]]
        else []) ++
          ((pass2 sub ((lookupEntry rds dn).getD Tree.empty)).acts).map
            (Action.withParent dn) ++
          (pass2Dirs rest rfs
            (setEntry rds dn (pass2 sub ((lookupEntry rds dn).getD Tree.empty)).rep)).acts from by
      simp [pass2Dirs]]
    rw [ih _ _ hnodup.2]
    rw [bind_congr_of_mem rest _ _ (fun a ha => by
      have hne : a.1 ≠ dn := by
        intro hEq
        exact hnodup.1 (hEq ▸ (List.mem_map_of_mem (·.1) ha : a.1 ∈ rest.map (·.1)))
      rw [lookupEntry_setEntry_other _ _ _ _ hne])]
    simp

theorem pass2_restored_iff :
    ∀ sn : Tree, sn.wf = true → ∀ (rn : Tree) (q : List String),
      Action.fileRestored q ∈ (pass2 sn rn).acts ↔
        ((sn.fileAt q).isSome = true ∧ rn.pathExists q = false) := by
  intro sn
  induction sn using tree_ind with
  | h sfs sds ihsub =>
    intro hwf rn q
    obtain ⟨rfs, rds⟩ := rn
    rw [wf_node_iff] at hwf
    obtain ⟨hnd, hwfsub⟩ := hwf
    obtain ⟨hndf, hndd, hdisj⟩ := nodupB_append _ _ hnd
    rw [pass2_node]
    show Action.fileRestored q ∈ (pass2Files sfs rfs rds).acts ++
        (pass2Dirs sds (pass2Files sfs rfs rds).rep rds).acts ↔ _
    rw [List.mem_append, pass2Files_acts sfs rfs rds hndf, pass2Dirs_acts sds _ rds hndd]
    match q with
    | [] =>
      constructor
      · rintro (hfile | hdir)
        · obtain ⟨e, he, hq⟩ := List.mem_flatMap.1 hfile
          split at hq <;> simp at hq
        · obtain ⟨e, he, hq⟩ := List.mem_flatMap.1 hdir
          rw [List.mem_append] at hq
          rcases hq with hq | hq
          · split at hq <;> simp at hq
          · obtain ⟨a, ha, hEq⟩ := List.mem_map.1 hq
            rw [withParent_fileRestored_iff] at hEq
            obtain ⟨q', _, hq'⟩ := hEq
            simp at hq'
      · rintro ⟨hsome, _⟩
        simp at hsome
    | [n] =>
      constructor
      · rintro (hfile | hdir)
        · obtain ⟨e, he, hq⟩ := List.mem_flatMap.1 hfile
          split at hq
          next hmiss =>
            simp only [List.mem_singleton, Action.fileRestored.injEq] at hq
            have hn : n = e.1 := by simpa using hq
            subst hn
            rw [Bool.not_eq_true', Bool.or_eq_false_iff] at hmiss
            refine ⟨?_, ?_⟩
            · rw [Tree.fileAt_single, Tree.files_node]
              exact (lookupEntry_isSome_iff _ _).2 ⟨e, he, rfl⟩
            · rw [Tree.pathExists_single, Tree.files_node, Tree.dirs_node, hmiss.1, hmiss.2]
              rfl
          next => simp at hq
        · obtain ⟨e, he, hq⟩ := List.mem_flatMap.1 hdir
          rw [List.mem_append] at hq
          rcases hq with hq | hq
          · split at hq <;> simp at hq
          · obtain ⟨a, ha, hEq⟩ := List.mem_map.1 hq
            rw [withParent_fileRestored_iff] at hEq
            obtain ⟨q', ha', hq'⟩ := hEq
            have hq0 : q' = [] := by cases hq'; rfl
            subst hq0
            subst ha'
            have := (ihsub e he (hwfsub e he) _ []).1 ha
            simp at this
      · rintro ⟨hsome, hpath⟩
        left
        rw [Tree.fileAt_single, Tree.files_node] at hsome
        obtain ⟨e, he, hn⟩ := (lookupEntry_isSome_iff _ _).1 hsome
        rw [Tree.pathExists_single, Tree.files_node, Tree.dirs_node,
          Bool.or_eq_false_iff] at hpath
        refine List.mem_flatMap.2 ⟨e, he, ?_⟩
        rw [hn, if_pos (by rw [hpath.1, hpath.2]; rfl)]
        simp
    | n :: m :: ns =>
      constructor
      · rintro (hfile | hdir)
        · obtain ⟨e, he, hq⟩ := List.mem_flatMap.1 hfile
          split at hq <;> simp at hq
        · obtain ⟨e, he, hq⟩ := List.mem_flatMap.1 hdir
          rw [List.mem_append] at hq
          rcases hq with hq | hq
          · split at hq <;> simp at hq
          · obtain ⟨a, ha, hEq⟩ := List.mem_map.1 hq
            rw [withParent_fileRestored_iff] at hEq
            obtain ⟨q', ha', hq'⟩ := hEq
            have hEq1 : e.1 = n ∧ q' = m :: ns := by
              cases hq'; exact ⟨rfl, rfl⟩
            obtain ⟨hen, hq'eq⟩ := hEq1
            subst hq'eq
            subst ha'
            have hih := (ihsub e he (hwfsub e he) _ (m :: ns)).1 ha
            rw [hen] at hih
            have hlk : lookupEntry sds n = some e.2 :=
              (lookupEntry_unique sds n e.2 hndd).1 (by
                have : (n, e.2) = e := by cases e; cases hen; rfl
                rw [this]; exact he)
            refine ⟨?_, ?_⟩
            · rw [Tree.fileAt_cons, Tree.dirs_node, hlk]
              exact hih.1
            · rw [Tree.pathExists_cons, Tree.dirs_node]
              cases hrd : lookupEntry rds n with
              | some c =>
                have := hih.2
                rw [hrd] at this
                simpa using this
              | none => rfl
      · rintro ⟨hsome, hpath⟩
        right
        rw [Tree.fileAt_cons, Tree.dirs_node] at hsome
        cases hlk : lookupEntry sds n with
        | none => rw [hlk] at hsome; simp at hsome
        | some sub =>
          rw [hlk] at hsome
          have hmem : (n, sub) ∈ sds := lookupEntry_mem _ _ _ hlk
          rw [Tree.pathExists_cons, Tree.dirs_node] at hpath
          have hchild : (((lookupEntry rds n).getD Tree.empty).pathExists (m :: ns)) = false := by
            cases hrd : lookupEntry rds n with
            | some c => rw [hrd] at hpath; simpa using hpath
            | none => simpa using Tree.pathExists_empty (m :: ns) (by simp)
          refine List.mem_flatMap.2 ⟨(n, sub), hmem, List.mem_append.2 (Or.inr ?_)⟩
          refine List.mem_map.2 ⟨Action.fileRestored (m :: ns), ?_,
            by rw [withParent_fileRestored_iff]; exact ⟨m :: ns, rfl, rfl⟩⟩
          exact (ihsub (n, sub) hmem (hwfsub (n, sub) hmem) _ (m :: ns)).2 ⟨hsome, hchild⟩

theorem pass2Files_shape :
    ∀ (sfs rfs : List (String × FileData)) (rds : List (String × Tree)),
      ∀ a ∈ (pass2Files sfs rfs rds).acts, ∃ p, a = Action.fileRestored p := by
  intro sfs
  induction sfs with
  | nil => intro rfs rds a ha; simp [pass2Files] at ha
  | cons e rest ih =>
    intro rfs rds a ha
    obtain ⟨n0, fd0⟩ := e
    by_cases hmiss : ((lookupEntry rfs n0).isSome || (lookupEntry rds n0).isSome) = false
    · rw [show (pass2Files ((n0, fd0) :: rest) rfs rds).acts =
          Action.fileRestored [n0] :: (pass2Files rest (setEntry rfs n0 fd0) rds).acts from by
        simp [pass2Files, hmiss]] at ha
      rcases List.mem_cons.1 ha with h | h
      · exact ⟨[n0], h⟩
      · exact ih _ rds a h
    · rw [Bool.not_eq_false] at hmiss
      rw [show (pass2Files ((n0, fd0) :: rest) rfs rds).acts =
          (pass2Files rest rfs rds).acts from by simp [pass2Files, hmiss]] at ha
      exact ih rfs rds a ha

theorem pass2Dirs_shape :
    ∀ (sds : List (String × Tree)) (rfs : List (String × FileData)) (rds : List (String × Tree)),
      (∀ e ∈ sds, ∀ (rn : Tree), ∀ a ∈ (pass2 e.2 rn).acts,
        (∃ p, a = Action.dirCreated p) ∨ (∃ p, a = Action.fileRestored p)) →
      ∀ a ∈ (pass2Dirs sds rfs rds).acts,
        (∃ p, a = Action.dirCreated p) ∨ (∃ p, a = Action.fileRestored p) := by
  intro sds
  induction sds with
  | nil => intro rfs rds _ a ha; simp [pass2Dirs] at ha
  | cons e rest ih =>
    intro rfs rds H a ha
    obtain ⟨dn, sub⟩ := e
    rw [show (pass2Dirs ((dn, sub) :: rest) rfs rds).acts =
        (if !((lookupEntry rfs dn).isSome || (lookupEntry rds dn).isSome) then
          [Action.dirCreated [dn]]
        else []) ++
          ((pass2 sub ((lookupEntry rds dn).getD Tree.empty)).acts).map
            (Action.withParent dn) ++
          (pass2Dirs rest rfs
            (setEntry rds dn (pass2 sub ((lookupEntry rds dn).getD Tree.empty)).rep)).acts from by
      simp [pass2Dirs]] at ha
    rw [List.append_assoc, List.mem_append, List.mem_append] at ha
    rcases ha with h | h | h
    · split at h
      · exact Or.inl ⟨[dn], by simpa using h⟩
      · simp at h
    · obtain ⟨b, hb, hEq⟩ := List.mem_map.1 h
      have := H (dn, sub) (List.mem_cons_self _ _) _ b hb
      rcases this with ⟨p, hp⟩ | ⟨p, hp⟩ <;> subst hp <;> subst hEq
      · exact Or.inl ⟨dn :: p, rfl⟩
      · exact Or.inr ⟨dn :: p, rfl⟩
    · exact ih rfs _ (fun e he => H e (List.mem_cons_of_mem _ he)) a h

theorem pass2_shape :
    ∀ (sn rn : Tree), ∀ a ∈ (pass2 sn rn).acts,
      (∃ p, a = Action.dirCreated p) ∨ (∃ p, a = Action.fileRestored p) := by
  intro sn
  induction sn using tree_ind with
  | h sfs sds ihsub =>
    intro rn a ha
    obtain ⟨rfs, rds⟩ := rn
    rw [pass2_node] at ha
    replace ha : a ∈ (pass2Files sfs rfs rds).acts ++
        (pass2Dirs sds (pass2Files sfs rfs rds).rep rds).acts := ha
    rcases List.mem_append.1 ha with h | h
    · exact Or.inr (pass2Files_shape sfs rfs rds a h)
    · exact pass2Dirs_shape sds _ rds (fun e he rn' => ihsub e he rn') a h

/-! ## Phase 3: state and action characterizations -/

theorem prune_node (srcOpt : Option Tree) (known : List (List String))
    (rfs : List (String × FileData)) (rds : List (String × Tree)) :
    prune srcOpt known (.node rfs rds) =
      ⟨.node (pruneFiles known rfs).rep (pruneDrop srcOpt (pruneChildren srcOpt known rds).rep).rep,
       (pruneChildren srcOpt known rds).acts ++ (pruneFiles known rfs).acts ++
         (pruneDrop srcOpt (pruneChildren srcOpt known rds).rep).acts⟩ := by
  rw [prune]

theorem pruneFiles_lookup (known : List (List String)) :
    ∀ (rfs : List (String × FileData)) (n : String),
      lookupEntry (pruneFiles known rfs).rep n =
        if [n] ∈ known then lookupEntry rfs n else none := by
  intro rfs
  induction rfs with
  | nil =>
    intro n
    simp [pruneFiles, lookupEntry]
  | cons e rest ih =>
    intro n
    obtain ⟨n0, fd0⟩ := e
    by_cases hk : [n0] ∈ known
    · rw [show (pruneFiles known ((n0, fd0) :: rest)).rep =
          (n0, fd0) :: (pruneFiles known rest).rep from by simp [pruneFiles, hk]]
      by_cases hn : n0 = n
      · subst hn
        rw [lookupEntry, if_pos rfl, lookupEntry, if_pos rfl, if_pos hk]
      · rw [lookupEntry, if_neg hn, ih n, lookupEntry, if_neg hn]
    · rw [show (pruneFiles known ((n0, fd0) :: rest)).rep =
          (pruneFiles known rest).rep from by simp [pruneFiles, hk]]
      rw [ih n]
      by_cases hn : n0 = n
      · subst hn
        rw [if_neg hk, lookupEntry, if_pos rfl, if_neg hk]
      · rw [lookupEntry, if_neg hn]

theorem pruneChildren_lookup (srcOpt : Option Tree) (known : List (List String)) :
    ∀ (rds : List (String × Tree)) (n : String),
      lookupEntry (pruneChildren srcOpt known rds).rep n =
        (lookupEntry rds n).map (fun sub =>
          (prune (srcOpt.bind (fun s => lookupEntry s.dirs n)) (childKnown n known) sub).rep) := by
  intro rds
  induction rds with
  | nil => intro n; simp [pruneChildren, lookupEntry]
  | cons e rest ih =>
    intro n
    obtain ⟨dn, sub⟩ := e
    rw [show (pruneChildren srcOpt known ((dn, sub) :: rest)).rep =
        (dn, (prune (srcOpt.bind (fun s => lookupEntry s.dirs dn)) (childKnown dn known) sub).rep)
          :: (pruneChildren srcOpt known rest).rep from by simp [pruneChildren]]
    by_cases hn : dn = n
    · subst hn
      rw [lookupEntry, if_pos rfl, lookupEntry, if_pos rfl]
      rfl
    · rw [lookupEntry, if_neg hn, ih n, lookupEntry, if_neg hn]

theorem pruneDrop_lookup (srcOpt : Option Tree) :
    ∀ (rds : List (String × Tree)) (n : String),
      lookupEntry (pruneDrop srcOpt rds).rep n =
        if srcHas srcOpt n = true then lookupEntry rds n else none := by
  intro rds
  induction rds with
  | nil => intro n; simp [pruneDrop, lookupEntry]
  | cons e rest ih =>
    intro n
    obtain ⟨dn, sub⟩ := e
    by_cases hs : srcHas srcOpt dn = true
    · rw [show (pruneDrop srcOpt ((dn, sub) :: rest)).rep =
          (dn, sub) :: (pruneDrop srcOpt rest).rep from by simp [pruneDrop, hs]]
      by_cases hn : dn = n
      · subst hn
        rw [lookupEntry, if_pos rfl, lookupEntry, if_pos rfl, if_pos hs]
      · rw [lookupEntry, if_neg hn, ih n, lookupEntry, if_neg hn]
    · rw [show (pruneDrop srcOpt ((dn, sub) :: rest)).rep =
          (pruneDrop srcOpt rest).rep from by simp [pruneDrop, hs]]
      rw [ih n]
      by_cases hn : dn = n
      · subst hn
        rw [if_neg hs, lookupEntry, if_pos rfl, if_neg hs]
      · rw [lookupEntry, if_neg hn]

theorem prune_fileAt :
    ∀ (rn : Tree) (srcOpt : Option Tree) (known : List (List String)) (q : List String),
      (prune srcOpt known rn).rep.fileAt q =
        if keepFile srcOpt known q = true then rn.fileAt q else none := by
  intro rn
  induction rn using tree_ind with
  | h rfs rds ihsub =>
    intro srcOpt known q
    rw [prune_node]
    match q with
    | [] =>
      rw [show keepFile srcOpt known [] = false from rfl]
      simp
    | [n] =>
      show lookupEntry (pruneFiles known rfs).rep n = _
      rw [pruneFiles_lookup known rfs n, Tree.fileAt_single, Tree.files_node]
      rw [show keepFile srcOpt known [n] = decide ([n] ∈ known) from rfl]
      by_cases hk : [n] ∈ known
      · rw [if_pos hk, if_pos (by simp [hk])]
      · rw [if_neg hk, if_neg (by simp [hk])]
    | n :: m :: ns =>
      show (Tree.node (pruneFiles known rfs).rep
          (pruneDrop srcOpt (pruneChildren srcOpt known rds).rep).rep).fileAt (n :: m :: ns) = _
      rw [Tree.fileAt_cons, Tree.dirs_node, pruneDrop_lookup, pruneChildren_lookup,
        Tree.fileAt_cons, Tree.dirs_node]
      rw [show keepFile srcOpt known (n :: m :: ns) =
        (srcHas srcOpt n &&
          keepFile (srcOpt.bind (fun s => lookupEntry s.dirs n)) (childKnown n known)
            (m :: ns)) from rfl]
      cases hrd : lookupEntry rds n with
      | none =>
        cases hsh : srcHas srcOpt n <;>
          cases hkf : keepFile (srcOpt.bind (fun s => lookupEntry s.dirs n)) (childKnown n known)
            (m :: ns) <;> simp
      | some sub =>
        have hmem : (n, sub) ∈ rds := lookupEntry_mem _ _ _ hrd
        have hih := ihsub (n, sub) hmem (srcOpt.bind (fun s => lookupEntry s.dirs n))
          (childKnown n known) (m :: ns)
        cases hsh : srcHas srcOpt n with
        | false => simp
        | true => simp [hih]

theorem pruneFiles_shape (known : List (List String)) :
    ∀ (rfs : List (String × FileData)), ∀ a ∈ (pruneFiles known rfs).acts,
      ∃ n, a = Action.fileDeleted [n] := by
  intro rfs
  induction rfs with
  | nil => intro a ha; simp [pruneFiles] at ha
  | cons e rest ih =>
    intro a ha
    obtain ⟨n0, fd0⟩ := e
    by_cases hk : [n0] ∈ known
    · rw [show (pruneFiles known ((n0, fd0) :: rest)).acts =
          (pruneFiles known rest).acts from by simp [pruneFiles, hk]] at ha
      exact ih a ha
    · rw [show (pruneFiles known ((n0, fd0) :: rest)).acts =
          Action.fileDeleted [n0] :: (pruneFiles known rest).acts from by
        simp [pruneFiles, hk]] at ha
      rcases List.mem_cons.1 ha with h | h
      · exact ⟨n0, h⟩
      · exact ih a h

theorem pruneDrop_shape (srcOpt : Option Tree) :
    ∀ (rds : List (String × Tree)), ∀ a ∈ (pruneDrop srcOpt rds).acts,
      ∃ n, a = Action.dirDeleted [n] := by
  intro rds
  induction rds with
  | nil => intro a ha; simp [pruneDrop] at ha
  | cons e rest ih =>
    intro a ha
    obtain ⟨dn, sub⟩ := e
    by_cases hs : srcHas srcOpt dn = true
    · rw [show (pruneDrop srcOpt ((dn, sub) :: rest)).acts =
          (pruneDrop srcOpt rest).acts from by simp [pruneDrop, hs]] at ha
      exact ih a ha
    · rw [show (pruneDrop srcOpt ((dn, sub) :: rest)).acts =
          Action.dirDeleted [dn] :: (pruneDrop srcOpt rest).acts from by
        simp [pruneDrop, hs]] at ha
      rcases List.mem_cons.1 ha with h | h
      · exact ⟨dn, h⟩
      · exact ih a h

theorem pruneChildren_shape (srcOpt : Option Tree) (known : List (List String)) :
    ∀ (rds : List (String × Tree)),
      (∀ e ∈ rds, ∀ (so : Option Tree) (kn : List (List String)),
        ∀ a ∈ (prune so kn e.2).acts,
          ∃ p, (a = Action.fileDeleted p ∨ a = Action.dirDeleted p) ∧ p ≠ []) →
      ∀ a ∈ (pruneChildren srcOpt known rds).acts,
        ∃ p, (a = Action.fileDeleted p ∨ a = Action.dirDeleted p) ∧ p ≠ [] := by
  intro rds
  induction rds with
  | nil => intro _ a ha; simp [pruneChildren] at ha
  | cons e rest ih =>
    intro H a ha
    obtain ⟨dn, sub⟩ := e
    rw [show (pruneChildren srcOpt known ((dn, sub) :: rest)).acts =
        ((prune (srcOpt.bind (fun s => lookupEntry s.dirs dn)) (childKnown dn known) sub).acts).map
          (Action.withParent dn) ++ (pruneChildren srcOpt known rest).acts from by
      simp [pruneChildren]] at ha
    rcases List.mem_append.1 ha with h | h
    · obtain ⟨b, hb, hEq⟩ := List.mem_map.1 h
      have := H (dn, sub) (List.mem_cons_self _ _) _ _ b hb
      obtain ⟨p, hp, _⟩ := this
      rcases hp with hp | hp <;> subst hp <;> subst hEq
      · exact ⟨dn :: p, Or.inl rfl, by simp⟩
      · exact ⟨dn :: p, Or.inr rfl, by simp⟩
    · exact ih (fun e he => H e (List.mem_cons_of_mem _ he)) a h

theorem prune_shape :
    ∀ (rn : Tree) (srcOpt : Option Tree) (known : List (List String)),
      ∀ a ∈ (prune srcOpt known rn).acts,
        ∃ p, (a = Action.fileDeleted p ∨ a = Action.dirDeleted p) ∧ p ≠ [] := by
  intro rn
  induction rn using tree_ind with
  | h rfs rds ihsub =>
    intro srcOpt known a ha
    rw [prune_node] at ha
    replace ha : a ∈ (pruneChildren srcOpt known rds).acts ++ (pruneFiles known rfs).acts ++
        (pruneDrop srcOpt (pruneChildren srcOpt known rds).rep).acts := ha
    rw [List.append_assoc, List.mem_append, List.mem_append] at ha
    rcases ha with h | h | h
    · exact pruneChildren_shape srcOpt known rds
        (fun e he so kn => ihsub e he so kn) a h
    · obtain ⟨n, hn⟩ := pruneFiles_shape known rfs a h
      exact ⟨[n], Or.inl hn, by simp⟩
    · obtain ⟨n, hn⟩ := pruneDrop_shape srcOpt _ a h
      exact ⟨[n], Or.inr hn, by simp⟩

/-! ## `keepFile` lemmas -/

theorem keepFile_mem :
    ∀ (q : List String) (srcOpt : Option Tree) (known : List (List String)),
      keepFile srcOpt known q = true → q ∈ known := by
  intro q
  induction q with
  | nil => intro srcOpt known h; simp [keepFile] at h
  | cons n rest ih =>
    intro srcOpt known h
    match rest with
    | [] =>
      rw [show keepFile srcOpt known [n] = decide ([n] ∈ known) from rfl] at h
      simpa using h
    | m :: ns =>
      rw [show keepFile srcOpt known (n :: m :: ns) =
        (srcHas srcOpt n &&
          keepFile (srcOpt.bind (fun s => lookupEntry s.dirs n)) (childKnown n known)
            (m :: ns)) from rfl] at h
      rw [Bool.and_eq_true] at h
      have := ih (srcOpt.bind (fun s => lookupEntry s.dirs n)) (childKnown n known) h.2
      exact (childKnown_mem n known (m :: ns)).1 this

theorem keepFile_of_file (logName : String) :
    ∀ (q : List String) (src : Tree), src.wf = true →
      ∀ (known : List (List String)),
        (∀ r, r ∈ known ↔ ((src.fileAt r).isSome = true ∧ isLogPath logName r = false)) →
        ∀ fd, src.fileAt q = some fd → isLogPath logName q = false →
          keepFile (some src) known q = true := by
  intro q
  induction q with
  | nil => intro src _ known _ fd hq _; simp at hq
  | cons n rest ih =>
    intro src hwf known hknown fd hq hlog
    match rest with
    | [] =>
      rw [show keepFile (some src) known [n] = decide ([n] ∈ known) from rfl]
      simp only [decide_eq_true_iff]
      exact (hknown [n]).2 ⟨by rw [hq]; rfl, hlog⟩
    | m :: ns =>
      obtain ⟨sfs, sds⟩ := src
      rw [Tree.fileAt_cons, Tree.dirs_node] at hq
      cases hlk : lookupEntry sds n with
      | none => rw [hlk] at hq; simp at hq
      | some sub =>
        rw [hlk] at hq
        rw [show keepFile (some (Tree.node sfs sds)) known (n :: m :: ns) =
          (srcHas (some (Tree.node sfs sds)) n &&
            keepFile ((some (Tree.node sfs sds)).bind (fun s => lookupEntry s.dirs n))
              (childKnown n known) (m :: ns)) from rfl]
        rw [Bool.and_eq_true]
        constructor
        · rw [srcHas, Tree.dirs_node, hlk]
          simp
        · rw [show ((some (Tree.node sfs sds)).bind (fun s => lookupEntry s.dirs n)) =
            lookupEntry sds n from rfl, hlk]
          rw [wf_node_iff] at hwf
          obtain ⟨hnd, hwfsub⟩ := hwf
          have hmem : (n, sub) ∈ sds := lookupEntry_mem _ _ _ hlk
          refine ih sub (hwfsub (n, sub) hmem) (childKnown n known) ?_ fd hq
            (by rw [isLogPath_cons] at hlog; exact hlog)
          intro r
          rw [childKnown_mem n known r, hknown (n :: r)]
          match r with
          | [] =>
            constructor
            · rintro ⟨hs, hl⟩
              rw [Tree.fileAt_single, Tree.files_node] at hs
              obtain ⟨hndf, hndd, hdisj⟩ := nodupB_append _ _ hnd
              obtain ⟨e, he, hen⟩ := (lookupEntry_isSome_iff _ _).1 hs
              have h1 : n ∈ sfs.map (·.1) := by
                rw [← hen]; exact List.mem_map_of_mem (·.1) he
              have h2 : n ∈ sds.map (·.1) := by
                simpa using List.mem_map_of_mem (·.1) hmem
              exact absurd h2 (hdisj n h1)
            · rintro ⟨hs, _⟩
              simp at hs
          | x :: xs =>
            rw [Tree.fileAt_cons, Tree.dirs_node, hlk, isLogPath_cons]

/-! ## The naive fingerprint-everything phase 1 computes the same state -/

theorem pass1Naive_node (logName : String) (sfs rfs : List (String × FileData))
    (sds rds : List (String × Tree)) :
    pass1Naive logName (.node sfs sds) (.node rfs rds) =
      ⟨.node (pass1FilesNaive logName sfs rfs rds).rep
         (pass1DirsNaive logName sds (pass1FilesNaive logName sfs rfs rds).rep rds).rep,
       (pass1FilesNaive logName sfs rfs rds).known ++
         (pass1DirsNaive logName sds (pass1FilesNaive logName sfs rfs rds).rep rds).known,
       (pass1FilesNaive logName sfs rfs rds).acts ++
         (pass1DirsNaive logName sds (pass1FilesNaive logName sfs rfs rds).rep rds).acts,
       (pass1FilesNaive logName sfs rfs rds).hashed ++
         (pass1DirsNaive logName sds (pass1FilesNaive logName sfs rfs rds).rep rds).hashed⟩ := by
  rw [pass1Naive]

theorem pass1FilesNaive_state (logName : String) :
    ∀ (sfs rfs : List (String × FileData)) (rds : List (String × Tree)),
      (pass1FilesNaive logName sfs rfs rds).rep = (pass1Files logName sfs rfs rds).rep ∧
      (pass1FilesNaive logName sfs rfs rds).known = (pass1Files logName sfs rfs rds).known := by
  intro sfs
  induction sfs with
  | nil => intro rfs rds; exact ⟨rfl, rfl⟩
  | cons e rest ih =>
    intro rfs rds
    obtain ⟨n0, fd0⟩ := e
    by_cases hlog : n0 = logName
    · simpa [pass1FilesNaive, pass1Files, hlog] using ih rfs rds
    · by_cases hmiss : ((lookupEntry rfs n0).isSome || (lookupEntry rds n0).isSome) = false
      · simpa [pass1FilesNaive, pass1Files, hlog, hmiss] using ih (setEntry rfs n0 fd0) rds
      · rw [Bool.not_eq_false] at hmiss
        by_cases hhash : calculate_hash fd0.bytes =
            calculate_hash (((lookupEntry rfs n0).map (·.bytes)).getD [])
        · simpa [pass1FilesNaive, pass1Files, hlog, hmiss, hhash] using ih rfs rds
        · simpa [pass1FilesNaive, pass1Files, hlog, hmiss, hhash] using
            ih (setEntry rfs n0 fd0) rds

theorem pass1DirsNaive_state (logName : String) :
    ∀ (sds : List (String × Tree)),
      (∀ e ∈ sds, ∀ rn : Tree,
        (pass1Naive logName e.2 rn).rep = (pass1 logName e.2 rn).rep ∧
        (pass1Naive logName e.2 rn).known = (pass1 logName e.2 rn).known) →
      ∀ (rfs : List (String × FileData)) (rds : List (String × Tree)),
        (pass1DirsNaive logName sds rfs rds).rep = (pass1Dirs logName sds rfs rds).rep ∧
        (pass1DirsNaive logName sds rfs rds).known = (pass1Dirs logName sds rfs rds).known := by
  intro sds
  induction sds with
  | nil =>
    intro _ rfs rds
    constructor <;> simp [pass1DirsNaive, pass1Dirs]
  | cons e rest ih =>
    intro H rfs rds
    obtain ⟨dn, sub⟩ := e
    have hchild := H (dn, sub) (List.mem_cons_self _ _) ((lookupEntry rds dn).getD Tree.empty)
    have hrest := ih (fun e he => H e (List.mem_cons_of_mem _ he))
    constructor
    · rw [show (pass1DirsNaive logName ((dn, sub) :: rest) rfs rds).rep =
          (pass1DirsNaive logName rest rfs
            (setEntry rds dn
              (pass1Naive logName sub ((lookupEntry rds dn).getD Tree.empty)).rep)).rep from by
        simp [pass1DirsNaive]]
      rw [show (pass1Dirs logName ((dn, sub) :: rest) rfs rds).rep =
          (pass1Dirs logName rest rfs
            (setEntry rds dn
              (pass1 logName sub ((lookupEntry rds dn).getD Tree.empty)).rep)).rep from by
        simp [pass1Dirs]]
      rw [hchild.1, (hrest rfs _).1]
    · rw [show (pass1DirsNaive logName ((dn, sub) :: rest) rfs rds).known =
          ((pass1Naive logName sub ((lookupEntry rds dn).getD Tree.empty)).known).map (dn :: ·) ++
            (pass1DirsNaive logName rest rfs
              (setEntry rds dn
                (pass1Naive logName sub ((lookupEntry rds dn).getD Tree.empty)).rep)).known from by
        simp [pass1DirsNaive]]
      rw [show (pass1Dirs logName ((dn, sub) :: rest) rfs rds).known =
          ((pass1 logName sub ((lookupEntry rds dn).getD Tree.empty)).known).map (dn :: ·) ++
            (pass1Dirs logName rest rfs
              (setEntry rds dn
                (pass1 logName sub ((lookupEntry rds dn).getD Tree.empty)).rep)).known from by
        simp [pass1Dirs]]
      rw [hchild.1, hchild.2, (hrest rfs _).2]

theorem pass1Naive_state (logName : String) :
    ∀ (sn rn : Tree),
      (pass1Naive logName sn rn).rep = (pass1 logName sn rn).rep ∧
      (pass1Naive logName sn rn).known = (pass1 logName sn rn).known := by
  intro sn
  induction sn using tree_ind with
  | h sfs sds ihsub =>
    intro rn
    obtain ⟨rfs, rds⟩ := rn
    rw [pass1_node, pass1Naive_node]
    have hf := pass1FilesNaive_state logName sfs rfs rds
    have hd := pass1DirsNaive_state logName sds (fun e he => ihsub e he)
      (pass1Files logName sfs rfs rds).rep rds
    constructor
    · show Tree.node (pass1FilesNaive logName sfs rfs rds).rep _ = Tree.node _ _
      rw [hf.1, hd.1]
    · show (pass1FilesNaive logName sfs rfs rds).known ++ _ = _ ++ _
      rw [hf.2, hf.1, hd.2]

/-- The optimized and the naive create/update passes leave the replica in
the same final state after a full run. -/
theorem sync_naive_replica_eq (src : Tree) (rep : Option Tree) (logName : String) :
    (sync_folders_naive src rep logName).replica = (sync_folders src rep logName).replica := by
  show (prune (some src) (pass1Naive logName src (rep.getD Tree.empty)).known
      (pass2 src (pass1Naive logName src (rep.getD Tree.empty)).rep).rep).rep =
    (prune (some src) (pass1 logName src (rep.getD Tree.empty)).known
      (pass2 src (pass1 logName src (rep.getD Tree.empty)).rep).rep).rep
  rw [(pass1Naive_state logName src (rep.getD Tree.empty)).1,
    (pass1Naive_state logName src (rep.getD Tree.empty)).2]

/-- A path holding a file exists. -/
theorem Tree.pathExists_of_fileAt (t : Tree) (q : List String)
    (h : (t.fileAt q).isSome = true) : t.pathExists q = true := by
  rw [Tree.pathExists, Bool.or_eq_true]
  exact Or.inl h

/-! ## Claims -/

/-- C1: for every well-formed source tree and every compatible initial
replica (a replica incompatible with the source makes the Python pass
raise, so no complete run exists there), after one complete run of
`sync_folders` the replica holds a file at exactly the relative paths the
source holds one at, minus the paths whose final component is the log
file name, and at each such path the replica file's byte content equals
the source file's byte content. -/
theorem C1_mirror_after_sync (src : Tree) (rep : Option Tree) (logName : String)
    (hs : src.wf = true) (hc : compat src (rep.getD Tree.empty) = true) (q : List String) :
    ((sync_folders src rep logName).replica.fileAt q).map (·.bytes) =
      if isLogPath logName q = false then (src.fileAt q).map (·.bytes) else none := by
  have hrepl : (sync_folders src rep logName).replica =
      (prune (some src) (pass1 logName src (rep.getD Tree.empty)).known
        (pass2 src (pass1 logName src (rep.getD Tree.empty)).rep).rep).rep := rfl
  rw [hrepl, prune_fileAt]
  by_cases hlog : isLogPath logName q = false
  · rw [if_pos hlog]
    cases hsrc : src.fileAt q with
    | none =>
      cases hk : keepFile (some src) (pass1 logName src (rep.getD Tree.empty)).known q with
      | false => simp
      | true =>
        have hmem := keepFile_mem q _ _ hk
        rw [pass1_known_iff logName src hs (rep.getD Tree.empty) q, hsrc] at hmem
        simp at hmem
    | some fd =>
      have hkeep : keepFile (some src) (pass1 logName src (rep.getD Tree.empty)).known q
          = true :=
        keepFile_of_file logName q src hs _
          (fun r => pass1_known_iff logName src hs (rep.getD Tree.empty) r) fd hsrc hlog
      rw [if_pos hkeep, pass2_fileAt src hs _ q]
      have hA := pass1_fileAt logName src hs (rep.getD Tree.empty) hc q
      rw [hsrc, hlog] at hA
      rw [hsrc]
      cases hr0 : (rep.getD Tree.empty).fileAt q with
      | none =>
        rw [hr0, mergeFile_some_none] at hA
        have hpe : (pass1 logName src (rep.getD Tree.empty)).rep.pathExists q = true :=
          Tree.pathExists_of_fileAt _ _ (by rw [hA]; rfl)
        rw [if_neg (fun hcond => absurd hcond.2 (by simp [hpe]))]
        rw [hA]
      | some fd0 =>
        rw [hr0, mergeFile_some_some] at hA
        by_cases hh : calculate_hash fd.bytes = calculate_hash fd0.bytes
        · rw [if_pos hh] at hA
          have hbytes : fd0.bytes = fd.bytes := by
            rw [calculate_hash_eq, calculate_hash_eq] at hh
            exact hh.symm
          have hpe : (pass1 logName src (rep.getD Tree.empty)).rep.pathExists q = true :=
            Tree.pathExists_of_fileAt _ _ (by rw [hA]; rfl)
          rw [if_neg (fun hcond => absurd hcond.2 (by simp [hpe]))]
          rw [hA]
          simp [hbytes]
        · rw [if_neg hh] at hA
          have hpe : (pass1 logName src (rep.getD Tree.empty)).rep.pathExists q = true :=
            Tree.pathExists_of_fileAt _ _ (by rw [hA]; rfl)
          rw [if_neg (fun hcond => absurd hcond.2 (by simp [hpe]))]
          rw [hA]
  · rw [if_neg hlog]
    have hlogT : isLogPath logName q = true := by
      revert hlog
      cases isLogPath logName q <;> simp
    cases hk : keepFile (some src) (pass1 logName src (rep.getD Tree.empty)).known q with
    | false => simp
    | true =>
      have hmem := keepFile_mem q _ _ hk
      rw [pass1_known_iff logName src hs (rep.getD Tree.empty) q, hlogT] at hmem
      simp at hmem

/-- C1 witness: a two-level source against a stale replica, checked at
the nested file path. -/
theorem C1_mirror_after_sync_witness :
    ((sync_folders
        (Tree.node [("a.txt", ⟨[104, 105], 5⟩)] [("sub", Tree.node [("b.txt", ⟨[1, 2], 7⟩)] [])])
        (some (Tree.node [("old.txt", ⟨[9], 1⟩)] [])) "sync.log").replica.fileAt
        ["sub", "b.txt"]).map (·.bytes) =
      if isLogPath "sync.log" ["sub", "b.txt"] = false then
        ((Tree.node [("a.txt", ⟨[104, 105], 5⟩)]
          [("sub", Tree.node [("b.txt", ⟨[1, 2], 7⟩)] [])]).fileAt ["sub", "b.txt"]).map (·.bytes)
      else none :=
  C1_mirror_after_sync
    (Tree.node [("a.txt", ⟨[104, 105], 5⟩)] [("sub", Tree.node [("b.txt", ⟨[1, 2], 7⟩)] [])])
    (some (Tree.node [("old.txt", ⟨[9], 1⟩)] [])) "sync.log"
    (by simp [Tree.wf, wfChildren, nodupB])
    (by simp [compat, compatChildren, lookupEntry])
    ["sub", "b.txt"]

/-- C2: the second run is not free of side effects for every pair of
trees: when the source tree contains a file named like the log file, the
restore walk (which lacks the log-file exclusion) copies it into the
replica again on every run, and the prune walk deletes it again, logging
both; here the second run performs a restore and a delete. -/
theorem C2_second_run_side_effects :
    (sync_folders (Tree.node [("sync.log", ⟨[1, 2], 0⟩)] [])
      (some (sync_folders (Tree.node [("sync.log", ⟨[1, 2], 0⟩)] []) none "sync.log").replica)
      "sync.log").actions =
      [Action.fileRestored ["sync.log"], Action.fileDeleted ["sync.log"]] := by
  simp [sync_folders, pass1, pass1Dirs, pass1Files, pass2, pass2Dirs, pass2Files, prune,
    pruneChildren, pruneFiles, pruneDrop, srcHas, childKnown, lookupEntry, setEntry, Tree.empty]

/-- C4: a file named like the log file is not always left alone: if it
lives inside the source tree it is copied into the replica by the
restore walk (logged as restored) and then deleted by the prune walk;
and a replica file with that name is deleted as stale content. -/
theorem C4_log_file_restored_and_deleted :
    ((sync_folders (Tree.node [("sync.log", ⟨[1, 2], 0⟩)] []) none "sync.log").actions =
      [Action.dirCreated [], Action.fileRestored ["sync.log"],
        Action.fileDeleted ["sync.log"]]) ∧
    ((sync_folders Tree.empty (some (Tree.node [("sync.log", ⟨[3], 0⟩)] [])) "sync.log").actions =
      [Action.fileDeleted ["sync.log"]]) := by
  constructor <;>
    simp [sync_folders, pass1, pass1Dirs, pass1Files, pass2, pass2Dirs, pass2Files, prune,
      pruneChildren, pruneFiles, pruneDrop, srcHas, childKnown, lookupEntry, setEntry, Tree.empty]

/-- C5: with no exception handler in `sync_folders` or `calculate_hash`,
a transient read failure on one entry aborts the rest of the pass: here
`a.txt` vanishes between listing and reading, the loop raises while
processing it, and `b.txt` — intact in the source — is never copied
(the error state carries an empty replica listing). -/
theorem C5_transient_error_aborts_pass :
    pass1FilesRaising "sync.log" [("a.txt", none), ("b.txt", some ⟨[1], 1⟩)] [] [] =
      Except.error [] := by
  simp [pass1FilesRaising, lookupEntry]

/-- C8: `calculate_hash` reads the stream in 4096-byte chunks and feeds
them to the incremental hash in order; the digest equals hashing the
whole byte sequence at once (the chunk size is not
correctness-relevant), it depends only on the byte content, and two
contents have equal digests exactly when they are equal. -/
theorem C8_hash_chunking_and_equality :
    (∀ content : List Nat, calculate_hash content = md5_whole content) ∧
    (∀ a b : List Nat, calculate_hash a = calculate_hash b ↔ a = b) := by
  constructor
  · intro content
    rw [calculate_hash_eq]
    rfl
  · intro a b
    rw [calculate_hash_eq, calculate_hash_eq]

/-- C9: when the source folder does not exist at startup, `main` prints
the error and returns before configuring logging, before creating any
replica directory and before attempting a sync pass: the replica is
whatever it was, and no action is performed or logged. -/
theorem C9_missing_source_aborts (src : Tree) (rep : Option Tree) (logName : String) :
    main_model false src rep logName =
      ⟨true, false, rep, []⟩ := by
  simp [main_model]

/-- C10: the replica root exists when `sync_folders` returns; it is
created and logged at entry when the replica was missing — also for an
empty source tree — and no pass ever deletes the root directory (every
directory deletion is strictly below the root). -/
theorem C10_replica_root_preserved (src : Tree) (rep : Option Tree) (logName : String) :
    ((sync_folders src rep logName).replica.dirAt [] =
      some (sync_folders src rep logName).replica) ∧
    (rep = none → Action.dirCreated [] ∈ (sync_folders src rep logName).actions) ∧
    (Action.dirDeleted [] ∉ (sync_folders src rep logName).actions) := by
  refine ⟨Tree.dirAt_nil _, ?_, ?_⟩
  · intro hnone
    subst hnone
    show Action.dirCreated [] ∈
      ((([Action.dirCreated []] ++ (pass1 logName src Tree.empty).acts) ++
        (pass2 src (pass1 logName src Tree.empty).rep).acts) ++
        (prune (some src) (pass1 logName src Tree.empty).known
          (pass2 src (pass1 logName src Tree.empty).rep).rep).acts)
    exact List.mem_append_left _ (List.mem_append_left _
      (List.mem_append_left _ (List.mem_singleton.2 rfl)))
  · intro hmem
    have hacts : (sync_folders src rep logName).actions =
        (((if rep.isNone then [Action.dirCreated []] else []) ++
          (pass1 logName src (rep.getD Tree.empty)).acts) ++
          (pass2 src (pass1 logName src (rep.getD Tree.empty)).rep).acts) ++
          (prune (some src) (pass1 logName src (rep.getD Tree.empty)).known
            (pass2 src (pass1 logName src (rep.getD Tree.empty)).rep).rep).acts := rfl
    rw [hacts] at hmem
    rw [List.mem_append, List.mem_append, List.mem_append] at hmem
    rcases hmem with ((h | h) | h) | h
    · split at h <;> simp at h
    · rcases pass1_shape logName src _ _ h with ⟨p, hp⟩ | ⟨p, hp⟩ | ⟨p, hp⟩ <;> simp at hp
    · rcases pass2_shape src _ _ h with ⟨p, hp⟩ | ⟨p, hp⟩ <;> simp at hp
    · obtain ⟨p, hp, hne⟩ := prune_shape _ _ _ _ h
      rcases hp with hp | hp
      · simp at hp
      · exact hne (by injection hp with h1; exact h1.symm)

/-- C10 witness: an empty source and a missing replica — the root is
created and logged, and never deleted. -/
theorem C10_replica_root_preserved_witness :
    (Action.dirCreated [] ∈ (sync_folders Tree.empty none "sync.log").actions) ∧
    (Action.dirDeleted [] ∉ (sync_folders Tree.empty none "sync.log").actions) :=
  ⟨(C10_replica_root_preserved Tree.empty none "sync.log").2.1 rfl,
    (C10_replica_root_preserved Tree.empty none "sync.log").2.2⟩

/-- C3 counterexample: `a.txt` was deleted from the replica only; the
next run recreates it during the create/update walk and logs it as
`File copied`, not `File restored`, contradicting the claim that such a
file is logged as a restore and not as a plain copy. -/
theorem C3_counterexample :
    ((sync_folders (Tree.node [("a.txt", ⟨[104, 105], 5⟩)] []) (some Tree.empty)
        "sync.log").actions = [Action.fileCopied ["a.txt"]]) ∧
    Action.fileRestored ["a.txt"] ∉
      (sync_folders (Tree.node [("a.txt", ⟨[104, 105], 5⟩)] []) (some Tree.empty)
        "sync.log").actions := by
  have h : (sync_folders (Tree.node [("a.txt", ⟨[104, 105], 5⟩)] []) (some Tree.empty)
      "sync.log").actions = [Action.fileCopied ["a.txt"]] := by
    simp [sync_folders, pass1, pass1Dirs, pass1Files, pass2, pass2Dirs, pass2Files, prune,
      pruneChildren, pruneFiles, pruneDrop, srcHas, childKnown, lookupEntry, setEntry, Tree.empty]
  refine ⟨h, ?_⟩
  rw [h]
  simp

/-- C3 (amended): a file deleted from the replica only, with the source
untouched, is copied back with identical content on the next run — but
by the create/update walk, logged as a plain copy (`copied`); no
`restored` log line is emitted for it, since the restore walk only sees
files that are still missing after the first walk. -/
theorem C3_deleted_file_copied_back (src rep : Tree) (logName : String)
    (hs : src.wf = true) (hc : compat src rep = true)
    (q : List String) (fd : FileData) (hsrc : src.fileAt q = some fd)
    (hlog : isLogPath logName q = false) (hmiss : rep.pathExists q = false) :
    ((sync_folders src (some rep) logName).replica.fileAt q = some fd) ∧
    (Action.fileCopied q ∈ (sync_folders src (some rep) logName).actions) ∧
    (Action.fileRestored q ∉ (sync_folders src (some rep) logName).actions) := by
  have hrepfile : rep.fileAt q = none := by
    cases hfa : rep.fileAt q with
    | none => rfl
    | some fd0 =>
      exact absurd (Tree.pathExists_of_fileAt rep q (by rw [hfa]; rfl))
        (by rw [hmiss]; simp)
  have hA := pass1_fileAt logName src hs rep hc q
  rw [hsrc, hlog, hrepfile, mergeFile_some_none] at hA
  have hpe : (pass1 logName src rep).rep.pathExists q = true :=
    Tree.pathExists_of_fileAt _ _ (by rw [hA]; rfl)
  have hacts : (sync_folders src (some rep) logName).actions =
      (((pass1 logName src rep).acts ++ (pass2 src (pass1 logName src rep).rep).acts) ++
        (prune (some src) (pass1 logName src rep).known
          (pass2 src (pass1 logName src rep).rep).rep).acts) := rfl
  refine ⟨?_, ?_, ?_⟩
  · have hrepl : (sync_folders src (some rep) logName).replica =
        (prune (some src) (pass1 logName src rep).known
          (pass2 src (pass1 logName src rep).rep).rep).rep := rfl
    rw [hrepl, prune_fileAt]
    have hkeep : keepFile (some src) (pass1 logName src rep).known q = true :=
      keepFile_of_file logName q src hs _
        (fun r => pass1_known_iff logName src hs rep r) fd hsrc hlog
    rw [if_pos hkeep, pass2_fileAt src hs _ q]
    rw [if_neg (fun hcond => absurd hcond.2 (by simp [hpe]))]
    exact hA
  · rw [hacts]
    refine List.mem_append_left _ (List.mem_append_left _ ?_)
    exact (pass1_copied_iff logName src hs rep hc q).2 ⟨by rw [hsrc]; rfl, hlog, hmiss⟩
  · intro hmem
    rw [hacts, List.mem_append, List.mem_append] at hmem
    rcases hmem with (h | h) | h
    · rcases pass1_shape logName src _ _ h with ⟨p, hp⟩ | ⟨p, hp⟩ | ⟨p, hp⟩ <;> simp at hp
    · have := (pass2_restored_iff src hs _ q).1 h
      exact absurd this.2 (by simp [hpe])
    · obtain ⟨p, hp, _⟩ := prune_shape _ _ _ _ h
      rcases hp with hp | hp <;> simp at hp

/-- C3 witness: the amended statement at the concrete deleted-file
scenario. -/
theorem C3_deleted_file_copied_back_witness :
    ((sync_folders (Tree.node [("a.txt", ⟨[104, 105], 5⟩)] []) (some Tree.empty)
        "sync.log").replica.fileAt ["a.txt"] = some ⟨[104, 105], 5⟩) ∧
    (Action.fileCopied ["a.txt"] ∈
      (sync_folders (Tree.node [("a.txt", ⟨[104, 105], 5⟩)] []) (some Tree.empty)
        "sync.log").actions) ∧
    (Action.fileRestored ["a.txt"] ∉
      (sync_folders (Tree.node [("a.txt", ⟨[104, 105], 5⟩)] []) (some Tree.empty)
        "sync.log").actions) :=
  C3_deleted_file_copied_back (Tree.node [("a.txt", ⟨[104, 105], 5⟩)] []) Tree.empty "sync.log"
    (by simp [Tree.wf, wfChildren, nodupB])
    (compat_empty_right _)
    ["a.txt"] ⟨[104, 105], 5⟩
    (by simp [lookupEntry])
    (by simp [isLogPath])
    (Tree.pathExists_empty ["a.txt"] (by simp))

/-- C6: for a source file whose replica counterpart exists (and is not
named like the log file), the run overwrites the replica copy exactly
when the two content fingerprints differ; with equal fingerprints the
replica's own entry — its bytes and its modification time — is kept
unchanged, so a file with identical bytes but different modification
time is never rewritten, and with different bytes the source entry
replaces it. -/
theorem C6_update_iff_fingerprints_differ (src rep : Tree) (logName : String)
    (hs : src.wf = true) (hc : compat src rep = true)
    (q : List String) (fd fd0 : FileData)
    (hsrc : src.fileAt q = some fd) (hrep : rep.fileAt q = some fd0)
    (hlog : isLogPath logName q = false) :
    (Action.fileUpdated q ∈ (sync_folders src (some rep) logName).actions ↔
      calculate_hash fd.bytes ≠ calculate_hash fd0.bytes) ∧
    (calculate_hash fd.bytes = calculate_hash fd0.bytes →
      (sync_folders src (some rep) logName).replica.fileAt q = some fd0) ∧
    (calculate_hash fd.bytes ≠ calculate_hash fd0.bytes →
      (sync_folders src (some rep) logName).replica.fileAt q = some fd) := by
  have hacts : (sync_folders src (some rep) logName).actions =
      (((pass1 logName src rep).acts ++ (pass2 src (pass1 logName src rep).rep).acts) ++
        (prune (some src) (pass1 logName src rep).known
          (pass2 src (pass1 logName src rep).rep).rep).acts) := rfl
  have hrepl : (sync_folders src (some rep) logName).replica =
      (prune (some src) (pass1 logName src rep).known
        (pass2 src (pass1 logName src rep).rep).rep).rep := rfl
  have hA := pass1_fileAt logName src hs rep hc q
  rw [hsrc, hlog, hrep, mergeFile_some_some] at hA
  have hkeep : keepFile (some src) (pass1 logName src rep).known q = true :=
    keepFile_of_file logName q src hs _
      (fun r => pass1_known_iff logName src hs rep r) fd hsrc hlog
  refine ⟨?_, ?_, ?_⟩
  · constructor
    · intro hmem
      rw [hacts, List.mem_append, List.mem_append] at hmem
      rcases hmem with (h | h) | h
      · obtain ⟨fd', fd0', hs', hr', _, hneq'⟩ := (pass1_updated_iff logName src hs rep hc q).1 h
        rw [hsrc] at hs'
        rw [hrep] at hr'
        injection hs' with hfd
        injection hr' with hfd0
        rw [hfd, hfd0]
        exact hneq'
      · rcases pass2_shape src _ _ h with ⟨p, hp⟩ | ⟨p, hp⟩ <;> simp at hp
      · obtain ⟨p, hp, _⟩ := prune_shape _ _ _ _ h
        rcases hp with hp | hp <;> simp at hp
    · intro hneq
      rw [hacts]
      refine List.mem_append_left _ (List.mem_append_left _ ?_)
      exact (pass1_updated_iff logName src hs rep hc q).2 ⟨fd, fd0, hsrc, hrep, hlog, hneq⟩
  · intro hh
    rw [if_pos hh] at hA
    have hpe : (pass1 logName src rep).rep.pathExists q = true :=
      Tree.pathExists_of_fileAt _ _ (by rw [hA]; rfl)
    rw [hrepl, prune_fileAt, if_pos hkeep, pass2_fileAt src hs _ q,
      if_neg (fun hcond => absurd hcond.2 (by simp [hpe]))]
    exact hA
  · intro hh
    rw [if_neg hh] at hA
    have hpe : (pass1 logName src rep).rep.pathExists q = true :=
      Tree.pathExists_of_fileAt _ _ (by rw [hA]; rfl)
    rw [hrepl, prune_fileAt, if_pos hkeep, pass2_fileAt src hs _ q,
      if_neg (fun hcond => absurd hcond.2 (by simp [hpe]))]
    exact hA

/-- C6 witness: same bytes, different modification times — the replica
entry (with its own mtime) survives untouched and no update is logged;
the update action occurs exactly when the fingerprints differ. -/
theorem C6_update_iff_fingerprints_differ_witness :
    (Action.fileUpdated ["a.txt"] ∈
        (sync_folders (Tree.node [("a.txt", ⟨[104, 105], 5⟩)] [])
          (some (Tree.node [("a.txt", ⟨[104, 105], 99⟩)] [])) "sync.log").actions ↔
      calculate_hash ([104, 105] : List Nat) ≠ calculate_hash ([104, 105] : List Nat)) ∧
    (calculate_hash ([104, 105] : List Nat) = calculate_hash ([104, 105] : List Nat) →
      (sync_folders (Tree.node [("a.txt", ⟨[104, 105], 5⟩)] [])
        (some (Tree.node [("a.txt", ⟨[104, 105], 99⟩)] [])) "sync.log").replica.fileAt
          ["a.txt"] = some ⟨[104, 105], 99⟩) ∧
    (calculate_hash ([104, 105] : List Nat) ≠ calculate_hash ([104, 105] : List Nat) →
      (sync_folders (Tree.node [("a.txt", ⟨[104, 105], 5⟩)] [])
        (some (Tree.node [("a.txt", ⟨[104, 105], 99⟩)] [])) "sync.log").replica.fileAt
          ["a.txt"] = some ⟨[104, 105], 5⟩) :=
  C6_update_iff_fingerprints_differ
    (Tree.node [("a.txt", ⟨[104, 105], 5⟩)] [])
    (Tree.node [("a.txt", ⟨[104, 105], 99⟩)] []) "sync.log"
    (by simp [Tree.wf, wfChildren, nodupB])
    (by simp [compat, compatChildren, lookupEntry])
    ["a.txt"] ⟨[104, 105], 5⟩ ⟨[104, 105], 99⟩
    (by simp [lookupEntry])
    (by simp [lookupEntry])
    (by simp [isLogPath])

/-- C7: a path that does not exist in the replica when the pass starts is
never passed to `calculate_hash` during the run (for a new source file,
existence alone decides the copy; no fingerprint is computed), and the
naive variant that fingerprints every visited file produces the same
final replica state as the optimized pass. -/
theorem C7_fingerprint_skip_and_refinement (src : Tree) (rep : Option Tree) (logName : String)
    (hs : src.wf = true) :
    (∀ q, (rep.getD Tree.empty).pathExists q = false →
      q ∉ (sync_folders src rep logName).hashed) ∧
    ((sync_folders_naive src rep logName).replica = (sync_folders src rep logName).replica) := by
  constructor
  · intro q hpath hmem
    have hmem' : q ∈ (pass1 logName src (rep.getD Tree.empty)).hashed := hmem
    have h := pass1_hashed_imp logName src hs (rep.getD Tree.empty) q hmem'
    rw [hpath] at h
    simp at h
  · exact sync_naive_replica_eq src rep logName

/-- C7 witness: with a missing replica, a fresh source file is copied
without being fingerprinted, and the naive run ends in the same replica
state. -/
theorem C7_fingerprint_skip_and_refinement_witness :
    (["a.txt"] ∉ (sync_folders (Tree.node [("a.txt", ⟨[104, 105], 5⟩)] []) none
      "sync.log").hashed) ∧
    ((sync_folders_naive (Tree.node [("a.txt", ⟨[104, 105], 5⟩)] []) none "sync.log").replica =
      (sync_folders (Tree.node [("a.txt", ⟨[104, 105], 5⟩)] []) none "sync.log").replica) :=
  ⟨(C7_fingerprint_skip_and_refinement (Tree.node [("a.txt", ⟨[104, 105], 5⟩)] []) none
      "sync.log" (by simp [Tree.wf, wfChildren, nodupB])).1 ["a.txt"]
      (Tree.pathExists_empty ["a.txt"] (by simp)),
    (C7_fingerprint_skip_and_refinement (Tree.node [("a.txt", ⟨[104, 105], 5⟩)] []) none
      "sync.log" (by simp [Tree.wf, wfChildren, nodupB])).2⟩

end FolderSync
